import Mathlib

/-!
Verification of the virtual-memory / mmap subsystem of an xv6-derived kernel
(`kernel/vm.c`).  The page-table radix tree, the physical allocator and RAM,
the user/kernel copy routines, and the mmap fault / munmap writeback protocol
are shallowly embedded below; machine integers are `Nat` with explicit
`% 2 ^ 64` where C `uint64` wraparound matters.  A C `panic` is rendered as
the `fatal` result constructor (the kernel halts, so no post-state is carried).
-/

set_option maxHeartbeats 1000000
set_option maxRecDepth 8000

namespace VM

/-! ## Architectural and platform constants (riscv.h, param.h, fs.h, fcntl.h) -/

def PGSIZE : Nat := 4096
def PTE_V : Nat := 1
def PTE_R : Nat := 2
def PTE_W : Nat := 4
def PTE_X : Nat := 8
def PTE_U : Nat := 16

/-- Modelled from the spec: the headers defining this constant are not among
the sources.  The spec describes "a reserved-mapping tag bit repurposed by
this subsystem"; it is an RSW bit of the RISC-V PTE, bit 8. -/
def PTE_M : Nat := 256

def MAXVA : Nat := 2 ^ 38
def MAXOPBLOCKS : Nat := 10
def BSIZE : Nat := 1024
def PROT_READ : Nat := 1
def PROT_WRITE : Nat := 2
def PROT_EXEC : Nat := 4
def MAP_SHARED : Nat := 1
def MAP_PRIVATE : Nat := 2
def MAXVMA : Nat := 16

/-- Truncation to 64 bits: C `uint64` arithmetic. -/
def w64 (x : Nat) : Nat := x % 2 ^ 64

/-- 64-bit wrapping subtraction `x - y`. -/
def w64sub (x y : Nat) : Nat := (x + (2 ^ 64 - y % 2 ^ 64)) % 2 ^ 64

def PGROUNDDOWN (a : Nat) : Nat := a - a % PGSIZE
def PGROUNDUP (a : Nat) : Nat := PGROUNDDOWN (w64 (a + PGSIZE - 1))
def PX (level va : Nat) : Nat := (va >>> (12 + 9 * level)) &&& 511
def PA2PTE (pa : Nat) : Nat := (pa >>> 12) <<< 10
def PTE2PA (pte : Nat) : Nat := w64 ((pte >>> 10) <<< 12)
def PTE_FLAGS (pte : Nat) : Nat := pte &&& 1023

/-- Modelled from the spec: the macro converting mmap protection bits
(PROT_READ/WRITE/EXEC) to PTE permission bits (PTE_R/W/X); each PTE
permission bit sits one position above the PROT bit. -/
def PROT2FLAG (prot : Nat) : Nat := prot <<< 1

/-! ## External collaborators: physical allocator and RAM -/

/-- Allocator free list plus byte-addressed physical memory. -/
structure Mach where
  freeList : List Nat
  ram : Nat → Nat

/-- `kalloc()`: pop a frame from the free list; 0 signals exhaustion. -/
def kalloc (m : Mach) : Nat × Mach :=
  match m.freeList with
  | [] => (0, m)
  | f :: rest => (f, { m with freeList := rest })

/-- `kfree(pa)`. -/
def kfree (pa : Nat) (m : Mach) : Mach :=
  { m with freeList := pa :: m.freeList }

/-- `memset(pa, 0, PGSIZE)`. -/
def zeroPage (pa : Nat) (m : Mach) : Mach :=
  { m with ram := fun x => if pa ≤ x ∧ x < pa + PGSIZE then 0 else m.ram x }

/-- `memmove(dst, src, n)` on physical memory. -/
def copyBytes (dst src n : Nat) (ram : Nat → Nat) : Nat → Nat :=
  fun x => if dst ≤ x ∧ x < dst + n then ram (src + (x - dst)) else ram x

/-! ## The Sv39 page table

Three levels; a page-table page holds 512 PTEs.  Level-0 pages carry raw
64-bit PTE values; at levels 1 and 2 the `PTE_V` test of the C walker is
modelled by `Option` (the physical address stored in a valid intermediate
entry is the identity of the child table, which the tree holds directly). -/

def L0 : Type := Fin 512 → Nat
def L1 : Type := Fin 512 → Option L0
def L2 : Type := Fin 512 → Option L1

def emptyL0 : L0 := fun _ => 0
def emptyL1 : L1 := fun _ => none
def emptyL2 : L2 := fun _ => none

def updFn {α : Type} (f : Fin 512 → α) (i : Fin 512) (x : α) : Fin 512 → α :=
  fun j => if j = i then x else f j

def pxF (level va : Nat) : Fin 512 :=
  ⟨PX level va, Nat.and_lt_two_pow _ (show 511 < 2 ^ 9 by decide)⟩

/-- Result of `walk`: `fatal` is `panic("walk")`; `zero` is a 0 return (the
table is carried because an allocating walk may have linked fresh intermediate
pages before failing); `slot` is a pointer to the level-0 PTE: its current
value plus the write-through function. -/
inductive WalkR where
  | fatal
  | zero (t : L2) (m : Mach)
  | slot (pte : Nat) (set : Nat → L2) (m : Mach)

/-- `walk(pagetable, va, alloc)`. -/
def walk (t : L2) (va : Nat) (alloc : Bool) (m : Mach) : WalkR :=
  if MAXVA ≤ va then .fatal
  else
    match t (pxF 2 va) with
    | some l1 =>
      match l1 (pxF 1 va) with
      | some l0 =>
        .slot (l0 (pxF 0 va))
          (fun v => updFn t (pxF 2 va)
            (some (updFn l1 (pxF 1 va) (some (updFn l0 (pxF 0 va) v))))) m
      | none =>
        if alloc then
          let (f, m') := kalloc m
          if f = 0 then .zero t m'
          else
            .slot 0
              (fun v => updFn t (pxF 2 va)
                (some (updFn l1 (pxF 1 va) (some (updFn emptyL0 (pxF 0 va) v))))) m'
        else .zero t m
    | none =>
      if alloc then
        let (f, m₁) := kalloc m
        if f = 0 then .zero t m₁
        else
          let (g, m₂) := kalloc m₁
          if g = 0 then .zero (updFn t (pxF 2 va) (some emptyL1)) m₂
          else
            .slot 0
              (fun v => updFn t (pxF 2 va)
                (some (updFn emptyL1 (pxF 1 va) (some (updFn emptyL0 (pxF 0 va) v))))) m₂
      else .zero t m

/-- Read-only projection of `walk(t, va, 0)`: the level-0 PTE governing `va`,
or `none` when an intermediate table is missing or `va` is out of range. -/
def walkRead (t : L2) (va : Nat) : Option Nat :=
  if MAXVA ≤ va then none
  else
    match t (pxF 2 va) with
    | none => none
    | some l1 =>
      match l1 (pxF 1 va) with
      | none => none
      | some l0 => some (l0 (pxF 0 va))

/-- The PTE governing `va`, with 0 (an invalid PTE) for an unreachable slot. -/
def pteOf (t : L2) (va : Nat) : Nat := (walkRead t va).getD 0

/-- `walkaddr(pagetable, va)`. -/
def walkaddr (t : L2) (va : Nat) : Nat :=
  if MAXVA ≤ va then 0
  else
    match walkRead t va with
    | none => 0
    | some pte =>
      if pte &&& PTE_V = 0 then 0
      else if pte &&& PTE_U = 0 then 0
      else PTE2PA pte

/-! ## mappages -/

inductive MapRes where
  | fatal
  | fail (t : L2) (m : Mach)
  | ok (t : L2) (m : Mach)

def MapRes.getT : MapRes → L2
  | .fatal => emptyL2
  | .fail t _ => t
  | .ok t _ => t

def MapRes.getM : MapRes → Mach
  | .fatal => ⟨[], fun _ => 0⟩
  | .fail _ m => m
  | .ok _ m => m

/-- The body of the `mappages` loop, by count of pages left (the loop writes
the slot, then exits when `a == last`). -/
def mappagesGo (t : L2) (a pa perm : Nat) (m : Mach) : Nat → MapRes
  | 0 => .ok t m
  | n + 1 =>
    match walk t a true m with
    | .fatal => .fatal
    | .zero t' m' => .fail t' m'
    | .slot pte set m' =>
      if pte &&& PTE_V ≠ 0 then .fatal
      else
        let t' := set (PA2PTE pa ||| perm ||| PTE_V)
        if n = 0 then .ok t' m'
        else mappagesGo t' (a + PGSIZE) (w64 (pa + PGSIZE)) perm m' n

/-- Number of loop iterations of `mappages(t, va, size, ...)`. -/
def npages (va size : Nat) : Nat :=
  (PGROUNDDOWN (w64 (va + size + (2 ^ 64 - 1))) - PGROUNDDOWN va) / PGSIZE + 1

/-- `mappages(pagetable, va, size, pa, perm)`.  When `last` wraps below `a`
(size 0), the C loop marches `a` past `MAXVA` and `walk` panics; that path is
rendered as `fatal` directly. -/
def mappages (t : L2) (va size pa perm : Nat) (m : Mach) : MapRes :=
  let a := PGROUNDDOWN va
  let last := PGROUNDDOWN (w64 (va + size + (2 ^ 64 - 1)))
  if last < a then .fatal
  else mappagesGo t a pa perm m ((last - a) / PGSIZE + 1)

/-! ## uvmunmap -/

inductive UnmapRes where
  | fatal
  | ok (t : L2) (m : Mach)

def uvmunmapGo (t : L2) (a : Nat) (dofree : Bool) (m : Mach) : Nat → UnmapRes
  | 0 => .ok t m
  | n + 1 =>
    match walk t a false m with
    | .fatal => .fatal
    | .zero _ _ => .fatal
    | .slot pte set _ =>
      if pte &&& PTE_V = 0 then uvmunmapGo t (a + PGSIZE) dofree m n
      else if PTE_FLAGS pte = PTE_V then .fatal
      else
        let m' := if dofree ∧ PTE2PA pte ≠ 0 then kfree (PTE2PA pte) m else m
        uvmunmapGo (set 0) (a + PGSIZE) dofree m' n

/-- `uvmunmap(pagetable, va, npages, do_free)`. -/
def uvmunmap (t : L2) (va cnt : Nat) (dofree : Bool) (m : Mach) : UnmapRes :=
  if va % PGSIZE ≠ 0 then .fatal
  else uvmunmapGo t va dofree m cnt

/-! ## uvmalloc / uvmdealloc -/

inductive DeallocRes where
  | fatal
  | ok (sz : Nat) (t : L2) (m : Mach)

/-- `uvmdealloc(pagetable, oldsz, newsz)`. -/
def uvmdealloc (t : L2) (oldsz newsz : Nat) (m : Mach) : DeallocRes :=
  if oldsz ≤ newsz then .ok oldsz t m
  else if PGROUNDUP newsz < PGROUNDUP oldsz then
    match uvmunmap t (PGROUNDUP newsz) ((PGROUNDUP oldsz - PGROUNDUP newsz) / PGSIZE) true m with
    | .fatal => .fatal
    | .ok t' m' => .ok newsz t' m'
  else .ok newsz t m

inductive GrowRes where
  | fatal
  | fail (t : L2) (m : Mach)
  | ok (t : L2) (m : Mach)

/-- The `uvmalloc` loop from `a`, with `oldszR = PGROUNDUP(oldsz)` (the local
`oldsz` after rounding), by count of pages left. -/
def uvmallocGo (t : L2) (a oldszR : Nat) (m : Mach) : Nat → GrowRes
  | 0 => .ok t m
  | n + 1 =>
    let (mem, m₁) := kalloc m
    if mem = 0 then
      match uvmdealloc t a oldszR m₁ with
      | .fatal => .fatal
      | .ok _ t' m' => .fail t' m'
    else
      let m₂ := zeroPage mem m₁
      match mappages t a PGSIZE mem (PTE_W ||| PTE_X ||| PTE_R ||| PTE_U) m₂ with
      | .fatal => .fatal
      | .fail t' m₃ =>
        match uvmdealloc t' a oldszR (kfree mem m₃) with
        | .fatal => .fatal
        | .ok _ t'' m' => .fail t'' m'
      | .ok t' m₃ => uvmallocGo t' (a + PGSIZE) oldszR m₃ n

inductive AllocRes where
  | fatal
  | fail (t : L2) (m : Mach)
  | ok (sz : Nat) (t : L2) (m : Mach)

/-- `uvmalloc(pagetable, oldsz, newsz)`. -/
def uvmalloc (t : L2) (oldsz newsz : Nat) (m : Mach) : AllocRes :=
  if newsz < oldsz then .ok oldsz t m
  else
    let o := PGROUNDUP oldsz
    match uvmallocGo t o o m ((newsz - o + PGSIZE - 1) / PGSIZE) with
    | .fatal => .fatal
    | .fail t' m' => .fail t' m'
    | .ok t' m' => .ok newsz t' m'

/-! ## uvmcopy -/

inductive CopyRes where
  | fatal
  | fail (t : L2) (m : Mach)
  | ok (t : L2) (m : Mach)

def CopyRes.isFatal : CopyRes → Bool
  | .fatal => true
  | _ => false

/-- The error path of `uvmcopy`: unwind everything below `i`, then report -1. -/
def uvmcopyErr (nt : L2) (i : Nat) (m : Mach) : CopyRes :=
  match uvmunmap nt 0 (i / PGSIZE) true m with
  | .fatal => .fatal
  | .ok t' m' => .fail t' m'

/-- The `uvmcopy` loop: `old` source table, `nt` destination built so far,
`i` current virtual address, by count of pages left. -/
def uvmcopyGo (old nt : L2) (i : Nat) (m : Mach) : Nat → CopyRes
  | 0 => .ok nt m
  | n + 1 =>
    match walk old i false m with
    | .fatal => .fatal
    | .zero _ _ => .fatal
    | .slot pte _ _ =>
      if pte &&& PTE_V = 0 then uvmcopyGo old nt (i + PGSIZE) m n
      else if PTE_FLAGS pte &&& PTE_M ≠ 0 then uvmcopyGo old nt (i + PGSIZE) m n
      else
        let (mem, m₁) := kalloc m
        if mem = 0 then uvmcopyErr nt i m₁
        else
          let m₂ := { m₁ with ram := copyBytes mem (PTE2PA pte) PGSIZE m₁.ram }
          match mappages nt i PGSIZE mem (PTE_FLAGS pte) m₂ with
          | .fatal => .fatal
          | .fail t' m₃ => uvmcopyErr t' i (kfree mem m₃)
          | .ok t' m₃ => uvmcopyGo old t' (i + PGSIZE) m₃ n

/-- `uvmcopy(old, new, sz)`. -/
def uvmcopy (old nt : L2) (sz : Nat) (m : Mach) : CopyRes :=
  uvmcopyGo old nt 0 m ((sz + PGSIZE - 1) / PGSIZE)

/-! ## copyout / copyin / copyinstr -/

inductive CpRes where
  | ok (m : Mach)
  | err (m : Mach)

def CpRes.getM : CpRes → Mach
  | .ok m => m
  | .err m => m

/-- The `copyout` loop.  The extra count only bounds the iterations; every
pass transfers `n ≥ 1` bytes, so `len + 1` passes always suffice. -/
def copyoutGo (t : L2) (dstva src len : Nat) (m : Mach) : Nat → CpRes
  | 0 => .err m
  | fuel + 1 =>
    if len = 0 then .ok m
    else
      let va0 := PGROUNDDOWN dstva
      let pa0 := walkaddr t va0
      if pa0 = 0 then .err m
      else
        let n := min (PGSIZE - (dstva - va0)) len
        let m' := { m with ram := copyBytes (pa0 + (dstva - va0)) src n m.ram }
        copyoutGo t (va0 + PGSIZE) (src + n) (len - n) m' fuel

/-- `copyout(pagetable, dstva, src, len)`; `src` is a kernel address. -/
def copyout (t : L2) (dstva src len : Nat) (m : Mach) : CpRes :=
  copyoutGo t dstva src len m (len + 1)

def copyinGo (t : L2) (dst srcva len : Nat) (m : Mach) : Nat → CpRes
  | 0 => .err m
  | fuel + 1 =>
    if len = 0 then .ok m
    else
      let va0 := PGROUNDDOWN srcva
      let pa0 := walkaddr t va0
      if pa0 = 0 then .err m
      else
        let n := min (PGSIZE - (srcva - va0)) len
        let m' := { m with ram := copyBytes dst (pa0 + (srcva - va0)) n m.ram }
        copyinGo t (dst + n) (va0 + PGSIZE) (len - n) m' fuel

/-- `copyin(pagetable, dst, srcva, len)`; `dst` is a kernel address. -/
def copyin (t : L2) (dst srcva len : Nat) (m : Mach) : CpRes :=
  copyinGo t dst srcva len m (len + 1)

/-- State after the byte loop of `copyinstr`: the null flag, memory, and the
advanced `dst` and `max` cursors. -/
structure CisR where
  got : Bool
  ram : Nat → Nat
  dst : Nat
  maxr : Nat

/-- The inner byte loop of `copyinstr` over one page chunk of `n` bytes. -/
def cisInner (ram : Nat → Nat) (p dst maxr : Nat) : Nat → CisR
  | 0 => ⟨false, ram, dst, maxr⟩
  | n + 1 =>
    if ram p = 0 then ⟨true, fun x => if x = dst then 0 else ram x, dst, maxr⟩
    else cisInner (fun x => if x = dst then ram p else ram x) (p + 1) (dst + 1) (maxr - 1) n

def copyinstrGo (t : L2) (dst srcva maxr : Nat) (m : Mach) : Nat → CpRes
  | 0 => .err m
  | fuel + 1 =>
    if maxr = 0 then .err m
    else
      let va0 := PGROUNDDOWN srcva
      let pa0 := walkaddr t va0
      if pa0 = 0 then .err m
      else
        let n := min (PGSIZE - (srcva - va0)) maxr
        let r := cisInner m.ram (pa0 + (srcva - va0)) dst maxr n
        if r.got then .ok { m with ram := r.ram }
        else copyinstrGo t r.dst (va0 + PGSIZE) r.maxr { m with ram := r.ram } fuel

/-- `copyinstr(pagetable, dst, srcva, max)`. -/
def copyinstr (t : L2) (dst srcva maxr : Nat) (m : Mach) : CpRes :=
  copyinstrGo t dst srcva maxr m (maxr + 1)

/-! ## Region (VMA) table, the fault handler, and munmap -/

/-- One slot of the fixed-capacity per-process region table (`struct vma`).
`addr = 0` marks a free slot.  The backing open file is an external
reference-counted handle; its inode's content is modelled by `FS` below. -/
structure VMA where
  addr : Nat
  length : Nat
  prot : Nat
  flags : Nat
  fileoff : Nat

/-- The backing file's content: byte data and size. -/
structure FS where
  data : Nat → Nat
  size : Nat

/-- Modelled from the spec: `readBytes(inode, offset, dstFrame, length) →
bytesRead` (fs.c is not among the sources).  Reads
`min(length, size - offset)` bytes of file content at `offset` into physical
memory at `dst` and returns the count; 0 past end of file. -/
def readi (fs : FS) (dst off n : Nat) (ram : Nat → Nat) : Nat × (Nat → Nat) :=
  if fs.size < off then (0, ram)
  else
    let n' := min n (fs.size - off)
    (n', fun x => if dst ≤ x ∧ x < dst + n' then fs.data (off + (x - dst)) else ram x)

inductive FaultRes where
  | fatal
  | err (t : L2) (m : Mach)
  | ok (t : L2) (m : Mach)

def FaultRes.getT : FaultRes → L2
  | .fatal => emptyL2
  | .err t _ => t
  | .ok t _ => t

def FaultRes.getM : FaultRes → Mach
  | .fatal => ⟨[], fun _ => 0⟩
  | .err _ m => m
  | .ok _ m => m

/-- The region-table scan of `mmapapage`, carrying the faulting (page-rounded)
address and the PTE slot writer. -/
def mmapapageFind (fs : FS) (addr : Nat) (set : Nat → L2) (t : L2) (m : Mach) :
    List VMA → FaultRes
  | [] => .err t m
  | v :: rest =>
    if v.addr = 0 then mmapapageFind fs addr set t m rest
    else if v.addr ≤ addr ∧ addr < v.addr + v.length then
      let mapFileOff := addr - v.addr
      let (dst, m₁) := kalloc m
      if dst = 0 then .err t m₁
      else
        let m₂ := zeroPage dst m₁
        let t' := set (PA2PTE dst ||| PTE_U ||| PTE_V ||| PTE_M ||| PROT2FLAG v.prot)
        let (rn, ram') := readi fs dst mapFileOff PGSIZE m₂.ram
        if rn = 0 then .err t' { m₂ with ram := ram' }
        else .ok t' { m₂ with ram := ram' }
    else mmapapageFind fs addr set t m rest

/-- `mmapapage(addr)`: the demand-paging fault handler. -/
def mmapapage (fs : FS) (t : L2) (vmas : List VMA) (addr0 : Nat) (m : Mach) : FaultRes :=
  let addr := PGROUNDDOWN addr0
  match walk t addr false m with
  | .fatal => .fatal
  | .zero _ _ => .err t m
  | .slot pte set _ =>
    if pte &&& PTE_M = 0 then .err t m
    else mmapapageFind fs addr set t m vmas

/-- The transaction-size bound on one writeback chunk:
`((MAXOPBLOCKS - 1 - 1 - 2) / 2) * BSIZE`. -/
def maxChunk : Nat := ((MAXOPBLOCKS - 1 - 1 - 2) / 2) * BSIZE

/-- The writeback loop of `munmap`: `wr off n1` is `writei(ip, 1, low+i, off,
n1)` (an external collaborator; plain and negative results per its contract).
Runs on `Int` like the C `int` locals; the count only bounds iterations and
`n + 1` passes suffice whenever `writei` respects its contract. -/
def wbLoop (wr : Nat → Nat → Int) (n i : Int) (off : Nat) (ret : Int) :
    Nat → Option (Int × Nat)
  | 0 => none
  | fuel + 1 =>
    if i < n then
      let n1 : Int := min (n - i) (maxChunk : Int)
      let r := wr off n1.toNat
      let off' := if 0 < r then off + r.toNat else off
      if r = 0 then some (ret, off')
      else if r = -1 then some (-1, off')
      else wbLoop wr n (i + r) off' ret fuel
    else some (ret, off)

/-- Specification measure for the writeback loop: the `(i, offset)` state
after `k` chunks, advancing exactly as `wbLoop` does on positive answers. -/
def wbIter (wr : Nat → Nat → Int) (n : Int) : Nat → Int → Nat → Int × Nat
  | 0, i, off => (i, off)
  | k + 1, i, off =>
    let r := wr off (min (n - i) (maxChunk : Int)).toNat
    wbIter wr n k (i + r) (if 0 < r then off + r.toNat else off)

inductive MunRes where
  | fatal
  | stuck
  | ok (ret : Int) (vmas : List VMA) (t : L2) (m : Mach)

def MunRes.getRet : MunRes → Int
  | .ok r _ _ _ => r
  | _ => 0

def MunRes.getVmas : MunRes → List VMA
  | .ok _ v _ _ => v
  | _ => []

def MunRes.getT : MunRes → L2
  | .ok _ _ t _ => t
  | _ => emptyL2

def MunRes.getM : MunRes → Mach
  | .ok _ _ _ m => m
  | _ => ⟨[], fun _ => 0⟩

/-- The region-table scan of `munmap` with the found-region body: writeback of
a shared writable region, region bookkeeping, then `uvmunmap` of the range.
(`fileclose` of a fully unmapped slot only touches the external file handle;
the slot itself is reset to free, `addr = 0`.) -/
def munmapGo (wr : Nat → Nat → Int) (addrArg low high : Nat) (t : L2) (m : Mach) :
    List VMA → MunRes
  | [] => .ok 0 [] t m
  | v :: rest =>
    if v.addr = 0 ∨ addrArg < v.addr ∨ v.addr + v.length ≤ addrArg then
      match munmapGo wr addrArg low high t m rest with
      | .fatal => .fatal
      | .stuck => .stuck
      | .ok ret vs t' m' => .ok ret (v :: vs) t' m'
    else
      let n : Int := (high : Int) - (low : Int)
      let wb : Option (Int × Nat) :=
        if v.flags &&& MAP_SHARED ≠ 0 ∧ v.prot &&& PROT_WRITE ≠ 0 then
          wbLoop wr n 0 (v.fileoff + (low - v.addr)) 0 ((high - low) + 1)
        else some (0, 0)
      match wb with
      | none => .stuck
      | some (ret, _) =>
        let v' : VMA :=
          if low = v.addr ∧ high = v.addr + v.length then { v with addr := 0 }
          else if v.addr < low then { v with length := low - v.addr }
          else if high < v.addr + v.length then
            { v with
              length := w64 (v.length + w64sub v.addr high),
              fileoff := w64 (v.fileoff + (high - v.addr)),
              addr := high }
          else v
        match uvmunmap t low ((high - low) / PGSIZE) true m with
        | .fatal => .fatal
        | .ok t' m' => .ok ret (v' :: rest) t' m'

/-- `munmap(addr, length)`. -/
def munmap (wr : Nat → Nat → Int) (addrArg len : Nat) (t : L2) (vmas : List VMA)
    (m : Mach) : MunRes :=
  munmapGo wr addrArg (PGROUNDDOWN addrArg) (PGROUNDUP (addrArg + len)) t m vmas

/-! ## Counting measures, well-formedness, and concrete fixtures -/

def cntL1 (l1 : L1) : Nat := ∑ i : Fin 512, if (l1 i).isSome then 1 else 0

def wTbl : Option L1 → Nat
  | none => 0
  | some l1 => 1 + cntL1 l1

/-- Number of page-table pages hanging below the root (level-1 plus level-0). -/
def numTables (t : L2) : Nat := ∑ i : Fin 512, wTbl (t i)

/-- The physical allocator's contract: frames are nonzero, page-aligned,
64-bit physical addresses. -/
def wfAlloc (m : Mach) : Prop :=
  ∀ f ∈ m.freeList, f ≠ 0 ∧ f % PGSIZE = 0 ∧ f < 2 ^ 64

def c5T : L2 :=
  updFn emptyL2 (pxF 2 0) (some (updFn emptyL1 (pxF 1 0)
    (some (updFn emptyL0 (pxF 0 0) (PA2PTE 65536 ||| 19)))))

def c5M : Mach := ⟨[], fun _ => 0⟩

def c2vma : VMA := ⟨4096, 8192, PROT_READ, MAP_PRIVATE, 0⟩

def c2T : L2 :=
  updFn emptyL2 (pxF 2 8192) (some (updFn emptyL1 (pxF 1 8192) (some emptyL0)))

def c2res : MunRes := munmap (fun _ _ => 0) 8192 4096 c2T [c2vma] c5M

def c2Tpre : L2 :=
  updFn emptyL2 (pxF 2 4096) (some (updFn emptyL1 (pxF 1 4096) (some emptyL0)))

def c2resPre : MunRes := munmap (fun _ _ => 0) 4096 4096 c2Tpre [c2vma] c5M

def c1fs : FS := ⟨fun off => if off < 4096 then 111 else 222, 3 * 4096⟩

def c1T : L2 :=
  updFn emptyL2 (pxF 2 4096) (some (updFn emptyL1 (pxF 1 4096)
    (some (updFn emptyL0 (pxF 0 4096) (PTE_V ||| PTE_U ||| PTE_M)))))

def c1vma : VMA := ⟨4096, 4096, PROT_READ, MAP_SHARED, 4096⟩

def c1res : FaultRes := mmapapage c1fs c1T [c1vma] 4100 ⟨[8192], fun _ => 9⟩

def c7vma : VMA := ⟨4096, 8192, 3, 1, 0⟩

def c7wr : Nat → Nat → Int := fun _ _ => 0

def c10T : L2 :=
  updFn emptyL2 (pxF 2 0) (some (updFn emptyL1 (pxF 1 0)
    (some (updFn emptyL0 (pxF 0 0) (PTE_V ||| PTE_U ||| PTE_M)))))

/-- Page 0 a live user mapping to frame 65536; page 1 reserved-unbacked
(`V|U|M`, frame address 0). -/
def c10T2 : L2 :=
  updFn emptyL2 (pxF 2 0) (some (updFn emptyL1 (pxF 1 0)
    (some (updFn (updFn emptyL0 (pxF 0 0) (PA2PTE 65536 ||| PTE_V ||| PTE_U))
      (pxF 0 4096) (PTE_V ||| PTE_U ||| PTE_M)))))

/-- The byte-level translation used by the copy routines. -/
def tl (t : L2) (va : Nat) : Option Nat :=
  if walkaddr t (PGROUNDDOWN va) = 0 then none
  else some (walkaddr t (PGROUNDDOWN va) + (va - PGROUNDDOWN va))

def c6T : L2 :=
  updFn emptyL2 (pxF 2 0) (some (updFn emptyL1 (pxF 1 0)
    (some (updFn emptyL0 (pxF 0 0) (PA2PTE 65536 ||| PTE_V ||| PTE_U)))))

def c6M : Mach := ⟨[], fun x => if x = 65638 then 0 else 7⟩

def c3res : MapRes := mappages emptyL2 0 8192 65536 18 ⟨[4096, 8192], fun _ => 0⟩

def c4M : Mach := ⟨[40960], fun _ => 0⟩

def c4res : AllocRes := uvmalloc emptyL2 0 4096 c4M

def c4resT : L2 :=
  match c4res with
  | .fail t _ => t
  | _ => emptyL2

def c4resM : Mach :=
  match c4res with
  | .fail _ m => m
  | _ => c4M

/-- Specification measure: how many of the `n` pages from `a` hold a valid
slot with a nonzero frame — exactly the number of frames a freeing
`uvmunmap` run over that range hands back to the allocator. -/
def freedCount (t : L2) (a : Nat) : Nat → Nat
  | 0 => 0
  | n + 1 =>
    (if pteOf t a &&& PTE_V ≠ 0 ∧ PTE2PA (pteOf t a) ≠ 0 then 1 else 0)
      + freedCount t (a + PGSIZE) n

def c9oldL0a : L0 := emptyL0

def c9oldL0b : L0 :=
  updFn (updFn emptyL0 ⟨0, by decide⟩ (PA2PTE 65536 ||| 31)) ⟨1, by decide⟩
    (PA2PTE 69632 ||| 31)

def c9oldL1 : L1 :=
  updFn (updFn emptyL1 ⟨0, by decide⟩ (some c9oldL0a)) ⟨1, by decide⟩
    (some c9oldL0b)

def c9old : L2 := updFn emptyL2 ⟨0, by decide⟩ (some c9oldL1)

def c9m : Mach := ⟨[73728, 77824, 81920], fun _ => 3⟩

def c9wL0 : L0 := updFn emptyL0 ⟨0, by decide⟩ (PA2PTE 65536 ||| 31)

def c9wL1 : L1 := updFn emptyL1 ⟨0, by decide⟩ (some c9wL0)

def c9wT : L2 := updFn emptyL2 ⟨0, by decide⟩ (some c9wL1)

def c9wM : Mach := ⟨[8192, 12288, 16384], fun x => x % 251⟩

def c9wres : CopyRes := uvmcopy c9wT emptyL2 4096 c9wM

def c9wresT : L2 :=
  match c9wres with
  | .ok t _ => t
  | _ => emptyL2

def c9wresM : Mach :=
  match c9wres with
  | .ok _ m => m
  | _ => c9wM

/-! ## Arithmetic and bit-level helpers -/

theorem PGROUNDDOWN_eq (a : Nat) : PGROUNDDOWN a = PGSIZE * (a / PGSIZE) := by
  unfold PGROUNDDOWN PGSIZE
  omega

theorem PGROUNDDOWN_aligned {a : Nat} (h : a % PGSIZE = 0) : PGROUNDDOWN a = a := by
  unfold PGROUNDDOWN
  omega

theorem PGROUNDDOWN_mod (a : Nat) : PGROUNDDOWN a % PGSIZE = 0 := by
  unfold PGROUNDDOWN PGSIZE
  omega

theorem PGROUNDDOWN_le (a : Nat) : PGROUNDDOWN a ≤ a := by
  unfold PGROUNDDOWN
  omega

theorem sub_PGROUNDDOWN_lt (a : Nat) : a - PGROUNDDOWN a < PGSIZE := by
  unfold PGROUNDDOWN PGSIZE
  omega

theorem PX_eq_div (l va : Nat) : PX l va = va / 2 ^ (12 + 9 * l) % 512 := by
  unfold PX
  rw [Nat.shiftRight_eq_div_pow]
  have : (511 : Nat) = 2 ^ 9 - 1 := by decide
  rw [this, Nat.and_pow_two_sub_one_eq_mod]

theorem pxF_congr {va va' : Nat} (l : Nat) (h : va / PGSIZE = va' / PGSIZE) :
    pxF l va = pxF l va' := by
  apply Fin.ext
  show PX l va = PX l va'
  rw [PX_eq_div, PX_eq_div]
  have e : ∀ w : Nat, w / 2 ^ (12 + 9 * l) = w / PGSIZE / 2 ^ (9 * l) := by
    intro w
    rw [Nat.div_div_eq_div_mul]
    norm_num [PGSIZE, pow_add]
  rw [e, e, h]

theorem page_eq_of_pxF {va va' : Nat} (hva : va < MAXVA) (hva' : va' < MAXVA)
    (e2 : pxF 2 va = pxF 2 va') (e1 : pxF 1 va = pxF 1 va')
    (e0 : pxF 0 va = pxF 0 va') : va / PGSIZE = va' / PGSIZE := by
  have g2 : PX 2 va = PX 2 va' := congrArg Fin.val e2
  have g1 : PX 1 va = PX 1 va' := congrArg Fin.val e1
  have g0 : PX 0 va = PX 0 va' := congrArg Fin.val e0
  simp only [PX_eq_div] at g2 g1 g0
  norm_num at g2 g1 g0
  unfold MAXVA at hva hva'
  unfold PGSIZE
  omega

theorem updFn_same {α : Type} (f : Fin 512 → α) (i : Fin 512) (x : α) :
    updFn f i x i = x := by
  simp [updFn]

theorem updFn_other {α : Type} (f : Fin 512 → α) (i j : Fin 512) (x : α)
    (h : j ≠ i) : updFn f i x j = f j := by
  simp [updFn, h]

theorem updFn_self {α : Type} (f : Fin 512 → α) (i : Fin 512) :
    updFn f i (f i) = f := by
  funext j
  by_cases h : j = i
  · subst h; simp [updFn]
  · simp [updFn, h]

/-- `PA2PTE pa ||| q` as plain arithmetic, for flag fields `q < 1024`. -/
theorem pa2pte_or (pa q : Nat) (hq : q < 1024) :
    PA2PTE pa ||| q = pa / 4096 * 1024 + q := by
  unfold PA2PTE
  rw [Nat.shiftRight_eq_div_pow, Nat.shiftLeft_eq]
  have h1024 : (2 : Nat) ^ 10 = 1024 := by decide
  have h4096 : (2 : Nat) ^ 12 = 4096 := by decide
  rw [h1024, h4096]
  rw [Nat.mul_comm (pa / 4096) 1024, ← Nat.mul_add_lt_is_or (by omega : q < 2 ^ 10) (pa / 4096)]

theorem pte2pa_arith (x q : Nat) (hq : q < 1024) (hx : x * 4096 < 2 ^ 64) :
    PTE2PA (x * 1024 + q) = x * 4096 := by
  unfold PTE2PA w64
  rw [Nat.shiftRight_eq_div_pow, Nat.shiftLeft_eq]
  have h1024 : (2 : Nat) ^ 10 = 1024 := by decide
  have h4096 : (2 : Nat) ^ 12 = 4096 := by decide
  rw [h1024, h4096]
  have : (x * 1024 + q) / 1024 = x := by omega
  rw [this, Nat.mod_eq_of_lt hx]

theorem pte_flags_arith (x q : Nat) (hq : q < 1024) :
    PTE_FLAGS (x * 1024 + q) = q := by
  unfold PTE_FLAGS
  have : (1023 : Nat) = 2 ^ 10 - 1 := by decide
  rw [this, Nat.and_pow_two_sub_one_eq_mod]
  omega

theorem and_one_arith (x q : Nat) : (x * 1024 + q) &&& 1 = q &&& 1 := by
  rw [Nat.and_one_is_mod, Nat.and_one_is_mod]
  omega

/-! ## Table-page counting (for frame accounting) -/




theorem sum_updFn_nat (h : Fin 512 → Nat) (i : Fin 512) (y : Nat) :
    (∑ j : Fin 512, updFn h i y j) + h i = (∑ j : Fin 512, h j) + y := by
  have e : ∀ j : Fin 512, updFn h i y j = Function.update h i y j := by
    intro j
    rw [Function.update_apply]
    rfl
  calc (∑ j : Fin 512, updFn h i y j) + h i
      = (∑ j : Fin 512, Function.update h i y j) + h i := by
        rw [Finset.sum_congr rfl fun j _ => e j]
    _ = (y + ∑ j ∈ Finset.univ \ {i}, h j) + h i := by
        rw [Finset.sum_update_of_mem (Finset.mem_univ i)]
    _ = (∑ j : Fin 512, h j) + y := by
        rw [Finset.sdiff_singleton_eq_erase]
        rw [Nat.add_comm y, Nat.add_assoc, Nat.add_comm y, ← Nat.add_assoc,
          Finset.sum_erase_add _ _ (Finset.mem_univ i)]

theorem numTables_updFn (t : L2) (i : Fin 512) (e : Option L1) :
    numTables (updFn t i e) + wTbl (t i) = numTables t + wTbl e := by
  have comp : ∀ j : Fin 512, wTbl (updFn t i e j) = updFn (fun k => wTbl (t k)) i (wTbl e) j := by
    intro j
    by_cases hj : j = i <;> simp [updFn, hj]
  unfold numTables
  rw [Finset.sum_congr rfl fun j _ => comp j]
  exact sum_updFn_nat (fun k => wTbl (t k)) i (wTbl e)

theorem cntL1_updFn (l1 : L1) (i : Fin 512) (e : Option L0) :
    cntL1 (updFn l1 i e) + (if (l1 i).isSome then 1 else 0)
      = cntL1 l1 + (if e.isSome then 1 else 0) := by
  have comp : ∀ j : Fin 512,
      (if ((updFn l1 i e) j).isSome then 1 else 0)
        = updFn (fun k => if (l1 k).isSome then 1 else 0) i (if e.isSome then 1 else 0) j := by
    intro j
    by_cases hj : j = i <;> simp [updFn, hj]
  unfold cntL1
  rw [Finset.sum_congr rfl fun j _ => comp j]
  exact sum_updFn_nat _ i _

/-! ## Allocator well-formedness and basic kalloc facts -/


theorem kalloc_cases (m : Mach) :
    (m.freeList = [] ∧ kalloc m = (0, m)) ∨
      (∃ f rest, m.freeList = f :: rest ∧ kalloc m = (f, { m with freeList := rest })) := by
  cases h : m.freeList with
  | nil => exact Or.inl ⟨rfl, by simp [kalloc, h]⟩
  | cons f rest => exact Or.inr ⟨f, rest, rfl, by simp [kalloc, h]⟩

/-! ## walk: basic facts -/

theorem walk_not_fatal {t : L2} {va : Nat} {alloc : Bool} {m : Mach}
    (h : walk t va alloc m ≠ .fatal) : va < MAXVA := by
  by_contra hge
  apply h
  unfold walk
  rw [if_pos (Nat.le_of_not_lt hge)]

theorem walk_slot_lt {t : L2} {va : Nat} {alloc : Bool} {m : Mach}
    {pte : Nat} {set : Nat → L2} {m' : Mach}
    (h : walk t va alloc m = .slot pte set m') : va < MAXVA :=
  walk_not_fatal (by rw [h]; intro hc; exact WalkR.noConfusion hc)

theorem walk_slot_pteOf {t : L2} {va : Nat} {alloc : Bool} {m : Mach}
    {pte : Nat} {set : Nat → L2} {m' : Mach}
    (h : walk t va alloc m = .slot pte set m') : pteOf t va = pte := by
  unfold walk at h
  split at h
  · exact absurd h (by simp)
  next hva =>
    split at h
    next l1 hl1 =>
      split at h
      next l0 hl0 =>
        injection h with h1 h2 h3
        simp [pteOf, walkRead, hva, hl1, hl0, h1]
      next hl0 =>
        split at h
        · rcases hk : kalloc m with ⟨f, m₁⟩
          rw [hk] at h
          simp only at h
          split at h
          · exact absurd h (by simp)
          · injection h with h1 h2 h3
            simp [pteOf, walkRead, hva, hl1, hl0, ← h1]
        · exact absurd h (by simp)
    next hl1 =>
      split at h
      · rcases hk : kalloc m with ⟨f, m₁⟩
        rw [hk] at h
        simp only at h
        split at h
        · exact absurd h (by simp)
        · rcases hk2 : kalloc m₁ with ⟨g, m₂⟩
          rw [hk2] at h
          simp only at h
          split at h
          · exact absurd h (by simp)
          · injection h with h1 h2 h3
            simp [pteOf, walkRead, hva, hl1, ← h1]
      · exact absurd h (by simp)

theorem cntL1_emptyL1 : cntL1 emptyL1 = 0 := by
  simp [cntL1, emptyL1]

theorem walkRead_ge {t : L2} {va : Nat} (h : MAXVA ≤ va) : walkRead t va = none := by
  simp [walkRead, h]

/-- Reading back the slot that a `walk`-produced writer has just written. -/
theorem walkRead_pathUpd_same (t : L2) (l1 : L1) (l0 : L0) (va v : Nat) (hva : va < MAXVA) :
    walkRead (updFn t (pxF 2 va)
        (some (updFn l1 (pxF 1 va) (some (updFn l0 (pxF 0 va) v))))) va
      = some v := by
  simp [walkRead, Nat.not_le_of_lt hva, updFn_same]

/-- A path write leaves every other page's translation intact: literally for
slots that existed, and up to the `0`-for-missing reading (`pteOf`) when the
write created intermediate tables. -/
theorem walkRead_pathUpd_other (t : L2) (l1 : L1) (l0 : L0) (va va' v : Nat)
    (hva : va < MAXVA)
    (h2 : t (pxF 2 va) = some l1 ∨ t (pxF 2 va) = none ∧ l1 = emptyL1)
    (h1 : l1 (pxF 1 va) = some l0 ∨ l1 (pxF 1 va) = none ∧ l0 = emptyL0)
    (hne : va' / PGSIZE ≠ va / PGSIZE) :
    pteOf (updFn t (pxF 2 va)
        (some (updFn l1 (pxF 1 va) (some (updFn l0 (pxF 0 va) v))))) va'
        = pteOf t va' ∧
      ∀ x, walkRead t va' = some x →
        walkRead (updFn t (pxF 2 va)
            (some (updFn l1 (pxF 1 va) (some (updFn l0 (pxF 0 va) v))))) va'
          = some x := by
  by_cases hva' : MAXVA ≤ va'
  · refine ⟨by simp [pteOf, walkRead, hva'], fun x hx => ?_⟩
    rw [walkRead_ge hva'] at hx
    exact absurd hx (by simp)
  have hva'lt : va' < MAXVA := Nat.lt_of_not_le hva'
  by_cases e2 : pxF 2 va' = pxF 2 va
  · by_cases e1 : pxF 1 va' = pxF 1 va
    · have e0 : pxF 0 va' ≠ pxF 0 va := by
        intro e0
        exact hne (page_eq_of_pxF hva'lt hva e2 e1 e0)
      rcases h2 with h2 | ⟨h2, rfl⟩
      · rcases h1 with h1 | ⟨h1, rfl⟩
        · constructor
          · simp [pteOf, walkRead, hva', e2, e1, h2, h1, updFn_same,
              updFn_other _ _ _ _ e0]
          · intro x hx
            simp only [walkRead, hva', if_neg, e2, e1, h2, h1, updFn_same,
              updFn_other _ _ _ _ e0] at hx ⊢
            exact hx
        · constructor
          · simp [pteOf, walkRead, hva', e2, e1, h2, h1, updFn_same,
              updFn_other _ _ _ _ e0, emptyL0]
          · intro x hx
            simp only [walkRead, if_neg hva', e2, h2, e1, h1] at hx
            exact absurd hx (by simp)
      · have h1' : (emptyL1 : L1) (pxF 1 va) = none := rfl
        have hl0e : l0 = emptyL0 := by
          rcases h1 with h1 | ⟨_, h⟩
          · rw [h1'] at h1
            exact absurd h1 (by simp)
          · exact h
        subst hl0e
        constructor
        · simp [pteOf, walkRead, hva', e2, e1, h2, updFn_same,
            updFn_other _ _ _ _ e0, emptyL0]
        · intro x hx
          simp only [walkRead, if_neg hva', e2, h2] at hx
          exact absurd hx (by simp)
    · rcases h2 with h2 | ⟨h2, rfl⟩
      · constructor
        · simp [pteOf, walkRead, hva', e2, h2, updFn_same,
            updFn_other _ _ _ _ e1]
        · intro x hx
          simp only [walkRead, if_neg hva', e2, h2, updFn_same,
            updFn_other _ _ _ _ e1] at hx ⊢
          exact hx
      · constructor
        · simp [pteOf, walkRead, hva', e2, h2, updFn_same,
            updFn_other _ _ _ _ e1, emptyL1]
        · intro x hx
          simp only [walkRead, if_neg hva', e2, h2] at hx
          exact absurd hx (by simp)
  · constructor
    · simp [pteOf, walkRead, updFn_other _ _ _ _ e2]
    · intro x hx
      simp only [walkRead, updFn_other _ _ _ _ e2] at hx ⊢
      exact hx

/-- Everything the rest of the development needs about a successful `walk`:
reading back the written slot, preservation of all other pages, the
frames-vs-tables balance, and that RAM and the remaining free list are
untouched apart from pops. -/
theorem walk_slot_spec {t : L2} {va : Nat} {alloc : Bool} {m : Mach}
    {pte : Nat} {set : Nat → L2} {m' : Mach}
    (h : walk t va alloc m = .slot pte set m') :
    (∀ v, walkRead (set v) va = some v) ∧
    (∀ v va', va' / PGSIZE ≠ va / PGSIZE → pteOf (set v) va' = pteOf t va' ∧
      (∀ x, walkRead t va' = some x → walkRead (set v) va' = some x)) ∧
    (∀ v, m'.freeList.length + numTables (set v)
        = m.freeList.length + numTables t) ∧
    m'.ram = m.ram ∧ (∃ k, m'.freeList = List.drop k m.freeList) := by
  have hva : va < MAXVA := walk_slot_lt h
  unfold walk at h
  rw [if_neg (Nat.not_le_of_lt hva)] at h
  split at h
  next l1 hl1 =>
    split at h
    next l0 hl0 =>
      injection h with h1 h2 h3
      subst h2
      subst h3
      refine ⟨fun v => walkRead_pathUpd_same t l1 l0 va v hva,
        fun v va' hne =>
          walkRead_pathUpd_other t l1 l0 va va' v hva (Or.inl hl1) (Or.inl hl0) hne,
        fun v => ?_, rfl, 0, (List.drop_zero _).symm⟩
      show m.freeList.length
          + numTables (updFn t (pxF 2 va)
            (some (updFn l1 (pxF 1 va) (some (updFn l0 (pxF 0 va) v)))))
        = m.freeList.length + numTables t
      have hc := cntL1_updFn l1 (pxF 1 va) (some (updFn l0 (pxF 0 va) v))
      rw [hl0] at hc
      simp at hc
      have hn := numTables_updFn t (pxF 2 va)
        (some (updFn l1 (pxF 1 va) (some (updFn l0 (pxF 0 va) v))))
      rw [hl1] at hn
      simp only [wTbl] at hn
      omega
    next hl0 =>
      split at h
      · rcases hk : kalloc m with ⟨f, m₁⟩
        rw [hk] at h
        simp only at h
        split at h
        next hf => exact absurd h (by simp)
        next hf =>
          injection h with h1 h2 h3
          subst h2
          subst h3
          rcases kalloc_cases m with ⟨hnil, hke⟩ | ⟨f0, rest, hcons, hke⟩
          · rw [hke] at hk
            injection hk with e1 e2
            exact absurd e1.symm hf
          · rw [hke] at hk
            injection hk with e1 e2
            subst e1
            subst e2
            refine ⟨fun v => walkRead_pathUpd_same t l1 emptyL0 va v hva,
              fun v va' hne =>
                walkRead_pathUpd_other t l1 emptyL0 va va' v hva (Or.inl hl1)
                  (Or.inr ⟨hl0, rfl⟩) hne,
              fun v => ?_, rfl, 1, by rw [hcons]; rfl⟩
            show ({ m with freeList := rest } : Mach).freeList.length
                + numTables (updFn t (pxF 2 va)
                  (some (updFn l1 (pxF 1 va) (some (updFn emptyL0 (pxF 0 va) v)))))
              = m.freeList.length + numTables t
            have hc := cntL1_updFn l1 (pxF 1 va) (some (updFn emptyL0 (pxF 0 va) v))
            rw [hl0] at hc
            simp at hc
            have hn := numTables_updFn t (pxF 2 va)
              (some (updFn l1 (pxF 1 va) (some (updFn emptyL0 (pxF 0 va) v))))
            rw [hl1] at hn
            simp only [wTbl] at hn
            simp only [hcons]
            simp only [List.length_cons]
            omega
      · exact absurd h (by simp)
  next hl1 =>
    split at h
    · rcases hk : kalloc m with ⟨f, m₁⟩
      rw [hk] at h
      simp only at h
      split at h
      next hf => exact absurd h (by simp)
      next hf =>
        rcases hk2 : kalloc m₁ with ⟨g, m₂⟩
        rw [hk2] at h
        simp only at h
        split at h
        next hg => exact absurd h (by simp)
        next hg =>
          injection h with h1 h2 h3
          subst h2
          subst h3
          rcases kalloc_cases m with ⟨hnil, hke⟩ | ⟨f0, rest, hcons, hke⟩
          · rw [hke] at hk
            injection hk with e1 e2
            exact absurd e1.symm hf
          · rw [hke] at hk
            injection hk with e1 e2
            subst e1
            subst e2
            rcases kalloc_cases { m with freeList := rest } with ⟨hnil2, hke2⟩ |
                ⟨g0, rest2, hcons2, hke2⟩
            · rw [hke2] at hk2
              injection hk2 with e3 e4
              exact absurd e3.symm hg
            · rw [hke2] at hk2
              injection hk2 with e3 e4
              subst e3
              subst e4
              simp only at hcons2
              refine ⟨fun v => walkRead_pathUpd_same t emptyL1 emptyL0 va v hva,
                fun v va' hne =>
                  walkRead_pathUpd_other t emptyL1 emptyL0 va va' v hva
                    (Or.inr ⟨hl1, rfl⟩) (Or.inr ⟨rfl, rfl⟩) hne,
                fun v => ?_, rfl, 2, by rw [hcons, hcons2]; rfl⟩
              show ({ m with freeList := rest2 } : Mach).freeList.length
                  + numTables (updFn t (pxF 2 va)
                    (some (updFn emptyL1 (pxF 1 va) (some (updFn emptyL0 (pxF 0 va) v)))))
                = m.freeList.length + numTables t
              have hc := cntL1_updFn emptyL1 (pxF 1 va)
                (some (updFn emptyL0 (pxF 0 va) v))
              rw [cntL1_emptyL1] at hc
              have he : (emptyL1 : L1) (pxF 1 va) = none := rfl
              rw [he] at hc
              simp at hc
              have hn := numTables_updFn t (pxF 2 va)
                (some (updFn emptyL1 (pxF 1 va) (some (updFn emptyL0 (pxF 0 va) v))))
              rw [hl1] at hn
              simp only [wTbl] at hn
              simp only [hcons, hcons2, List.length_cons]
              omega
    · exact absurd h (by simp)

/-- A failed (`0`-returning) walk: translations unchanged (only empty
intermediate tables may have been linked), the frames-vs-tables balance
holds, RAM and the free list are untouched apart from pops.  The nonzero-
frames hypothesis is the allocator's contract. -/
theorem walk_zero_spec {t : L2} {va : Nat} {alloc : Bool} {m : Mach}
    {t' : L2} {m' : Mach}
    (h : walk t va alloc m = .zero t' m')
    (h0 : ∀ f ∈ m.freeList, f ≠ 0) :
    (∀ va', pteOf t' va' = pteOf t va') ∧
    (∀ va' x, walkRead t va' = some x → walkRead t' va' = some x) ∧
    (m'.freeList.length + numTables t' = m.freeList.length + numTables t) ∧
    m'.ram = m.ram ∧ (∃ k, m'.freeList = List.drop k m.freeList) := by
  have hm0 : ∀ (x : L2) (mm : Mach), t' = x → m' = mm → mm = m → x = t →
      (∀ va', pteOf t' va' = pteOf t va') ∧
      (∀ va' x, walkRead t va' = some x → walkRead t' va' = some x) ∧
      (m'.freeList.length + numTables t' = m.freeList.length + numTables t) ∧
      m'.ram = m.ram ∧ (∃ k, m'.freeList = List.drop k m.freeList) := by
    intro x mm ht hm hmm hx
    subst ht
    subst hm
    subst hmm
    subst hx
    exact ⟨fun _ => rfl, fun _ _ hh => hh, rfl, rfl, 0, (List.drop_zero _).symm⟩
  unfold walk at h
  split at h
  · exact absurd h (by simp)
  next hva =>
    split at h
    next l1 hl1 =>
      split at h
      next l0 hl0 => exact absurd h (by simp)
      next hl0 =>
        split at h
        · rcases hk : kalloc m with ⟨f, m₁⟩
          rw [hk] at h
          simp only at h
          split at h
          next hf =>
            injection h with e1 e2
            rcases kalloc_cases m with ⟨hnil, hke⟩ | ⟨f0, rest, hcons, hke⟩
            · rw [hke] at hk
              injection hk with a1 a2
              exact hm0 _ _ e1.symm e2.symm (by rw [← a2]) rfl
            · rw [hke] at hk
              injection hk with a1 a2
              have hmem : (0 : Nat) ∈ m.freeList := by
                rw [hcons, a1, hf]
                exact List.mem_cons_self _ _
              exact absurd rfl (h0 0 hmem)
          next hf => exact absurd h (by simp)
        · injection h with e1 e2
          exact hm0 _ _ e1.symm e2.symm rfl rfl
    next hl1 =>
      split at h
      · rcases hk : kalloc m with ⟨f, m₁⟩
        rw [hk] at h
        simp only at h
        split at h
        next hf =>
          injection h with e1 e2
          rcases kalloc_cases m with ⟨hnil, hke⟩ | ⟨f0, rest, hcons, hke⟩
          · rw [hke] at hk
            injection hk with a1 a2
            exact hm0 _ _ e1.symm e2.symm (by rw [← a2]) rfl
          · rw [hke] at hk
            injection hk with a1 a2
            have hmem : f0 ∈ m.freeList := by
              rw [hcons]
              exact List.mem_cons_self _ _
            rw [← a1] at hf
            exact absurd hf (h0 f0 hmem)
        next hf =>
          rcases hk2 : kalloc m₁ with ⟨g, m₂⟩
          rw [hk2] at h
          simp only at h
          split at h
          next hg =>
            injection h with e1 e2
            -- second kalloc failed: the free list had exactly one frame
            rcases kalloc_cases m with ⟨hnil, hke⟩ | ⟨f0, rest, hcons, hke⟩
            · rw [hke] at hk
              injection hk with a1 a2
              exact absurd a1.symm hf
            · rw [hke] at hk
              injection hk with a1 a2
              subst a1
              subst a2
              rcases kalloc_cases { m with freeList := rest } with ⟨hnil2, hke2⟩ |
                  ⟨g0, rest2, hcons2, hke2⟩
              · rw [hke2] at hk2
                injection hk2 with b1 b2
                subst e1
                subst e2
                rw [← b2]
                simp only at hnil2
                constructor
                · intro va'
                  by_cases hva' : MAXVA ≤ va'
                  · simp [pteOf, walkRead, hva']
                  · by_cases epx : pxF 2 va' = pxF 2 va
                    · simp [pteOf, walkRead, hva', epx, hl1, updFn_same, emptyL1]
                    · simp [pteOf, walkRead, hva', updFn_other _ _ _ _ epx]
                constructor
                · intro va' x hx
                  by_cases hva' : MAXVA ≤ va'
                  · rw [walkRead_ge hva'] at hx
                    exact absurd hx (by simp)
                  · by_cases epx : pxF 2 va' = pxF 2 va
                    · rw [show walkRead t va' = none by
                        simp [walkRead, hva', epx, hl1]] at hx
                      exact absurd hx (by simp)
                    · simp only [walkRead, updFn_other _ _ _ _ epx] at hx ⊢
                      exact hx
                constructor
                · have hn := numTables_updFn t (pxF 2 va) (some emptyL1)
                  rw [hl1] at hn
                  simp only [wTbl, cntL1_emptyL1] at hn
                  simp [hcons, hnil2]
                  omega
                constructor
                · rfl
                · exact ⟨1, by rw [hcons, hnil2]; rfl⟩
              · rw [hke2] at hk2
                injection hk2 with b1 b2
                simp only at hcons2
                have hmem : g0 ∈ m.freeList := by
                  rw [hcons, hcons2]
                  exact List.mem_cons_of_mem _ (List.mem_cons_self _ _)
                rw [← b1] at hg
                exact absurd hg (h0 g0 hmem)
          next hg => exact absurd h (by simp)
      · injection h with e1 e2
        exact hm0 _ _ e1.symm e2.symm rfl rfl

theorem walk_false_zero {t : L2} {va : Nat} {m : Mach} {t' : L2} {m' : Mach}
    (h : walk t va false m = .zero t' m') : t' = t ∧ m' = m := by
  unfold walk at h
  split at h
  · exact absurd h (by simp)
  next hva =>
    split at h
    next l1 hl1 =>
      split at h
      next l0 hl0 => exact absurd h (by simp)
      next hl0 =>
        simp only [Bool.false_eq_true, if_false] at h
        injection h with e1 e2
        exact ⟨e1.symm, e2.symm⟩
    next hl1 =>
      simp only [Bool.false_eq_true, if_false] at h
      injection h with e1 e2
      exact ⟨e1.symm, e2.symm⟩

theorem walk_false_slot_m {t : L2} {va : Nat} {m : Mach} {pte : Nat}
    {set : Nat → L2} {m' : Mach}
    (h : walk t va false m = .slot pte set m') : m' = m := by
  unfold walk at h
  split at h
  · exact absurd h (by simp)
  next hva =>
    split at h
    next l1 hl1 =>
      split at h
      next l0 hl0 =>
        injection h with e1 e2 e3
        exact e3.symm
      next hl0 =>
        simp only [Bool.false_eq_true, if_false] at h
        exact absurd h (by simp)
    next hl1 =>
      simp only [Bool.false_eq_true, if_false] at h
      exact absurd h (by simp)

theorem walk_false_of_read_some {t : L2} {va pte : Nat}
    (h : walkRead t va = some pte) (m : Mach) :
    ∃ set, walk t va false m = .slot pte set m := by
  unfold walkRead at h
  split at h
  · exact absurd h (by simp)
  next hva =>
    split at h
    next hl1 => exact absurd h (by simp)
    next l1 hl1 =>
      split at h
      next hl0 => exact absurd h (by simp)
      next l0 hl0 =>
        injection h with e1
        refine ⟨fun v => updFn t (pxF 2 va)
            (some (updFn l1 (pxF 1 va) (some (updFn l0 (pxF 0 va) v)))), ?_⟩
        simp only [walk, if_neg hva, hl1, hl0, e1]

theorem walk_false_of_read_none {t : L2} {va : Nat} (hva : va < MAXVA)
    (h : walkRead t va = none) (m : Mach) :
    walk t va false m = .zero t m := by
  unfold walkRead at h
  rw [if_neg (Nat.not_le_of_lt hva)] at h
  split at h
  next hl1 =>
    simp [walk, if_neg (Nat.not_le_of_lt hva), hl1]
  next l1 hl1 =>
    split at h
    next hl0 =>
      simp [walk, if_neg (Nat.not_le_of_lt hva), hl1, hl0]
    next l0 hl0 => exact absurd h (by simp)

/-- Exact read-preservation for a slot write through an existing path (a
non-allocating walk's writer): no tables are created, so every other page's
`walkRead` is literally unchanged. -/
theorem walkRead_pathUpd_exact (t : L2) (l1 : L1) (l0 : L0) (va va' v : Nat)
    (hl1 : t (pxF 2 va) = some l1) (hl0 : l1 (pxF 1 va) = some l0)
    (hva : va < MAXVA) (hne : va' / PGSIZE ≠ va / PGSIZE) :
    walkRead (updFn t (pxF 2 va)
        (some (updFn l1 (pxF 1 va) (some (updFn l0 (pxF 0 va) v))))) va'
      = walkRead t va' := by
  by_cases hva' : MAXVA ≤ va'
  · simp [walkRead, hva']
  have hva'lt : va' < MAXVA := Nat.lt_of_not_le hva'
  by_cases e2 : pxF 2 va' = pxF 2 va
  · by_cases e1 : pxF 1 va' = pxF 1 va
    · have e0 : pxF 0 va' ≠ pxF 0 va := by
        intro e0
        exact hne (page_eq_of_pxF hva'lt hva e2 e1 e0)
      simp [walkRead, hva', e2, e1, hl1, hl0, updFn_same, updFn_other _ _ _ _ e0]
    · simp [walkRead, hva', e2, hl1, updFn_same, updFn_other _ _ _ _ e1]
  · simp [walkRead, hva', updFn_other _ _ _ _ e2]

theorem walk_false_slot_read {t : L2} {va : Nat} {m : Mach} {pte : Nat}
    {set : Nat → L2} {m' : Mach}
    (h : walk t va false m = .slot pte set m') : walkRead t va = some pte := by
  have hva : va < MAXVA := walk_slot_lt h
  unfold walk at h
  rw [if_neg (Nat.not_le_of_lt hva)] at h
  split at h
  next l1 hl1 =>
    split at h
    next l0 hl0 =>
      injection h with e1 e2 e3
      simp [walkRead, Nat.not_le_of_lt hva, hl1, hl0, e1]
    next hl0 =>
      simp only [Bool.false_eq_true, if_false] at h
      exact absurd h (by simp)
  next hl1 =>
    simp only [Bool.false_eq_true, if_false] at h
    exact absurd h (by simp)

theorem walk_false_slot_exact {t : L2} {va : Nat} {m : Mach} {pte : Nat}
    {set : Nat → L2} {m' : Mach}
    (h : walk t va false m = .slot pte set m') (v va' : Nat)
    (hne : va' / PGSIZE ≠ va / PGSIZE) :
    walkRead (set v) va' = walkRead t va' := by
  have hva : va < MAXVA := walk_slot_lt h
  unfold walk at h
  rw [if_neg (Nat.not_le_of_lt hva)] at h
  split at h
  next l1 hl1 =>
    split at h
    next l0 hl0 =>
      injection h with e1 e2 e3
      subst e2
      exact walkRead_pathUpd_exact t l1 l0 va va' v hl1 hl0 hva hne
    next hl0 =>
      simp only [Bool.false_eq_true, if_false] at h
      exact absurd h (by simp)
  next hl1 =>
    simp only [Bool.false_eq_true, if_false] at h
    exact absurd h (by simp)

theorem pageIdx_add (a k : Nat) : (a + k * PGSIZE) / PGSIZE = a / PGSIZE + k := by
  unfold PGSIZE
  omega

/-- Soundness of the `uvmunmap` loop: on a non-panicking run, valid slots in
range are cleared, invalid slots are skipped untouched, everything outside the
range keeps its exact translation, no table pages are created or destroyed,
RAM is untouched, and the frames pushed on the free list are exactly the
decoded addresses of the valid slots (all of them when every slot is valid
with a nonzero frame and freeing is on). -/
theorem uvmunmapGo_sound {dofree : Bool} :
    ∀ (n : Nat) (t : L2) (a : Nat) (m : Mach) (t' : L2) (m' : Mach),
    uvmunmapGo t a dofree m n = .ok t' m' →
    (∀ k, k < n → ∃ pte, walkRead t (a + k * PGSIZE) = some pte ∧
      (pte &&& PTE_V ≠ 0 → walkRead t' (a + k * PGSIZE) = some 0) ∧
      (pte &&& PTE_V = 0 → walkRead t' (a + k * PGSIZE) = some pte)) ∧
    (∀ va', (va' / PGSIZE < a / PGSIZE ∨ a / PGSIZE + n ≤ va' / PGSIZE) →
      walkRead t' va' = walkRead t va') ∧
    numTables t' = numTables t ∧
    m'.ram = m.ram ∧
    (∃ fs, m'.freeList = fs ++ m.freeList ∧
      (dofree = false → fs = []) ∧
      (∀ f ∈ fs, ∃ k, k < n ∧ ∃ pte, walkRead t (a + k * PGSIZE) = some pte ∧
        pte &&& PTE_V ≠ 0 ∧ f = PTE2PA pte) ∧
      (∀ k, k < n → ∀ pte, walkRead t (a + k * PGSIZE) = some pte →
        pte &&& PTE_V ≠ 0 → dofree = true → PTE2PA pte ≠ 0 → PTE2PA pte ∈ fs) ∧
      ((∀ k, k < n → ∀ pte, walkRead t (a + k * PGSIZE) = some pte →
          pte &&& PTE_V ≠ 0 ∧ PTE2PA pte ≠ 0) → dofree = true → fs.length = n)) := by
  intro n
  induction n with
  | zero =>
    intro t a m t' m' h
    simp only [uvmunmapGo] at h
    injection h with e1 e2
    subst e1
    subst e2
    exact ⟨fun k hk => absurd hk (by omega),
      fun va' _ => rfl, rfl, rfl,
      [], rfl, fun _ => rfl, fun f hf => absurd hf (by simp),
      fun k hk => absurd hk (by omega),
      fun _ _ => rfl⟩
  | succ n ih =>
    intro t a m t' m' h
    simp only [uvmunmapGo] at h
    rcases hw : walk t a false m with _ | ⟨t₀, m₀⟩ | ⟨pte, set, m₀⟩ <;> rw [hw] at h
    · exact absurd h (by simp)
    · exact absurd h (by simp)
    simp only at h
    have hm0 : m₀ = m := walk_false_slot_m hw
    subst hm0
    have hrd : walkRead t a = some pte := walk_false_slot_read hw
    have hpg : ∀ k : Nat, (a + PGSIZE + k * PGSIZE) = a + (k + 1) * PGSIZE := by
      intro k
      ring
    have hpidx1 : (a + PGSIZE) / PGSIZE = a / PGSIZE + 1 := by
      have := pageIdx_add a 1
      simpa using this
    split at h
    next hv0 =>
      -- invalid slot: skipped
      obtain ⟨ihp, ihpres, ihnum, ihram, fs, ihfs, ihfree, ihmem, ihmemr, ihlen⟩ :=
        ih t (a + PGSIZE) m₀ t' m' h
      refine ⟨?_, ?_, ihnum, ihram, fs, ihfs, ihfree, ?_, ?_, ?_⟩
      · intro k hk
        match k with
        | 0 =>
          refine ⟨pte, by simpa using hrd, fun hv => absurd hv0 hv, fun _ => ?_⟩
          have := ihpres a (by omega)
          simp only [Nat.zero_mul, Nat.add_zero]
          rw [this, hrd]
        | k + 1 =>
          obtain ⟨pte', h1, h2, h3⟩ := ihp k (by omega)
          rw [hpg k] at h1 h2 h3
          exact ⟨pte', h1, h2, h3⟩
      · intro va' hout
        exact ihpres va' (by omega)
      · intro f hf
        obtain ⟨k, hk, pte', h1, h2, h3⟩ := ihmem f hf
        rw [hpg k] at h1
        exact ⟨k + 1, by omega, pte', h1, h2, h3⟩
      · intro k hk pte' h1 h2 h3 h4
        match k with
        | 0 =>
          rw [show a + 0 * PGSIZE = a by omega, hrd] at h1
          injection h1 with h1
          rw [← h1] at h2
          exact absurd hv0 h2
        | k + 1 =>
          rw [← hpg k] at h1
          exact ihmemr k (by omega) pte' h1 h2 h3 h4
      · intro hall _
        exact absurd ((hall 0 (by omega) pte (by simpa using hrd)).1) (by simpa using hv0)
    next hv0 =>
      split at h
      next hleaf => exact absurd h (by simp)
      next hleaf =>
        obtain ⟨ihp, ihpres, ihnum, ihram, fs, ihfs, ihfree, ihmem, ihmemr, ihlen⟩ :=
          ih (set 0) (a + PGSIZE) (if dofree ∧ PTE2PA pte ≠ 0
            then kfree (PTE2PA pte) m₀ else m₀) t' m' h
        obtain ⟨hsame, hother, hsum, hram0, hsfx⟩ := walk_slot_spec hw
        have hexact : ∀ va', va' / PGSIZE ≠ a / PGSIZE →
            walkRead (set 0) va' = walkRead t va' :=
          fun va' hne => walk_false_slot_exact hw 0 va' hne
        have htrans : ∀ k : Nat, walkRead (set 0) (a + (k + 1) * PGSIZE)
            = walkRead t (a + (k + 1) * PGSIZE) := by
          intro k
          apply hexact
          rw [pageIdx_add]
          omega
        refine ⟨?_, ?_, ?_, ?_, ?_⟩
        · intro k hk
          match k with
          | 0 =>
            refine ⟨pte, by simpa using hrd, fun _ => ?_, fun hv => absurd hv hv0⟩
            have := ihpres a (by omega)
            simp only [Nat.zero_mul, Nat.add_zero]
            rw [this, hsame 0]
          | k + 1 =>
            obtain ⟨pte', h1, h2, h3⟩ := ihp k (by omega)
            rw [hpg k, htrans k] at h1
            rw [hpg k] at h2 h3
            exact ⟨pte', h1, h2, h3⟩
        · intro va' hout
          rw [ihpres va' (by omega), hexact va' (by omega)]
        · rw [ihnum]
          have := hsum 0
          omega
        · rw [ihram]
          split
          · rfl
          · rfl
        · refine ?_
          split at ihfs
          next hcond =>
            refine ⟨fs ++ [PTE2PA pte], ?_, ?_, ?_, ?_, ?_⟩
            · rw [ihfs]
              simp [kfree]
            · intro hfalse
              rw [hfalse] at hcond
              simp at hcond
            · intro f hf
              rcases List.mem_append.mp hf with hf | hf
              · obtain ⟨k, hk, pte', h1, h2, h3⟩ := ihmem f hf
                rw [hpg k, htrans k] at h1
                exact ⟨k + 1, by omega, pte', h1, h2, h3⟩
              · have : f = PTE2PA pte := by simpa using hf
                exact ⟨0, by omega, pte, by simpa using hrd, hv0, this⟩
            · intro k hk pte' h1 h2 h3 h4
              match k with
              | 0 =>
                rw [show a + 0 * PGSIZE = a by omega, hrd] at h1
                injection h1 with h1
                subst h1
                exact List.mem_append.mpr (Or.inr (by simp))
              | k + 1 =>
                rw [← htrans k, ← hpg k] at h1
                exact List.mem_append.mpr
                  (Or.inl (ihmemr k (by omega) pte' h1 h2 h3 h4))
            · intro hall hfree
              have hlen' : fs.length = n := by
                apply ihlen ?_ hfree
                intro k hk pte' h1
                rw [hpg k, htrans k] at h1
                exact hall (k + 1) (by omega) pte' h1
              simp [hlen']
          next hcond =>
            refine ⟨fs, ihfs, ihfree, ?_, ?_, ?_⟩
            · intro f hf
              obtain ⟨k, hk, pte', h1, h2, h3⟩ := ihmem f hf
              rw [hpg k, htrans k] at h1
              exact ⟨k + 1, by omega, pte', h1, h2, h3⟩
            · intro k hk pte' h1 h2 h3 h4
              match k with
              | 0 =>
                exfalso
                exact hcond ⟨by simp [h3], by
                  rw [show a + 0 * PGSIZE = a by omega, hrd] at h1
                  injection h1 with h1
                  rw [h1]
                  exact h4⟩
              | k + 1 =>
                rw [← htrans k, ← hpg k] at h1
                exact ihmemr k (by omega) pte' h1 h2 h3 h4
            · intro hall hfree
              exfalso
              apply hcond
              refine ⟨by simp [hfree], ?_⟩
              exact (hall 0 (by omega) pte (by simpa using hrd)).2

/-- The `uvmunmap` loop completes (no panic) whenever the intermediate tables
of every page in range exist and every valid slot is a leaf. -/
theorem uvmunmapGo_ok {dofree : Bool} :
    ∀ (n : Nat) (t : L2) (a : Nat) (m : Mach),
    (∀ k, k < n → ∃ pte, walkRead t (a + k * PGSIZE) = some pte ∧
      (pte &&& PTE_V = 0 ∨ PTE_FLAGS pte ≠ PTE_V)) →
    ∃ t' m', uvmunmapGo t a dofree m n = .ok t' m' := by
  intro n
  induction n with
  | zero =>
    intro t a m _
    exact ⟨t, m, rfl⟩
  | succ n ih =>
    intro t a m hstr
    have hpg : ∀ k : Nat, (a + PGSIZE + k * PGSIZE) = a + (k + 1) * PGSIZE := by
      intro k
      ring
    obtain ⟨pte, hrd, hcase⟩ := hstr 0 (by omega)
    simp only [Nat.zero_mul, Nat.add_zero] at hrd
    obtain ⟨set, hw⟩ := walk_false_of_read_some hrd m
    show ∃ t' m',
      (match walk t a false m with
        | .fatal => UnmapRes.fatal
        | .zero _ _ => UnmapRes.fatal
        | .slot pte set _ =>
          if pte &&& PTE_V = 0 then uvmunmapGo t (a + PGSIZE) dofree m n
          else if PTE_FLAGS pte = PTE_V then UnmapRes.fatal
          else uvmunmapGo (set 0) (a + PGSIZE) dofree
            (if dofree ∧ PTE2PA pte ≠ 0 then kfree (PTE2PA pte) m else m) n)
        = .ok t' m'
    rw [hw]
    by_cases hv : pte &&& PTE_V = 0
    · simp only [hv, if_pos rfl]
      apply ih
      intro k hk
      obtain ⟨pte', h1, h2⟩ := hstr (k + 1) (by omega)
      rw [← hpg k] at h1
      exact ⟨pte', h1, h2⟩
    · have hleaf : PTE_FLAGS pte ≠ PTE_V := by
        rcases hcase with hcase | hcase
        · exact absurd hcase hv
        · exact hcase
      simp only [if_neg hv, if_neg hleaf]
      apply ih
      intro k hk
      obtain ⟨pte', h1, h2⟩ := hstr (k + 1) (by omega)
      have hx : walkRead (set 0) (a + (k + 1) * PGSIZE)
          = walkRead t (a + (k + 1) * PGSIZE) := by
        apply walk_false_slot_exact hw
        rw [pageIdx_add]
        omega
      rw [← hx] at h1
      rw [← hpg k] at h1
      exact ⟨pte', h1, h2⟩

/-- C5: a call `uvmunmap(table, va, cnt, free)` with page-aligned `va` over
pages whose intermediate tables exist (every valid slot being a leaf) returns
normally: each page whose leaf slot is invalid is skipped untouched and
without error, each valid leaf slot is cleared to 0 and its decoded frame is
pushed on the allocator free list when `free` is set (and the frame nonzero),
every translation outside the requested range is left exactly unchanged, and
the free list is unchanged when `free` is clear.  A call with `va` not
page-aligned panics. -/
theorem C5_uvmunmap_spec :
    (∀ (t : L2) (va cnt : Nat) (dofree : Bool) (m : Mach),
      va % PGSIZE ≠ 0 → uvmunmap t va cnt dofree m = .fatal) ∧
    (∀ (t : L2) (va cnt : Nat) (dofree : Bool) (m : Mach),
      va % PGSIZE = 0 →
      (∀ k, k < cnt → ∃ pte, walkRead t (va + k * PGSIZE) = some pte ∧
        (pte &&& PTE_V = 0 ∨ PTE_FLAGS pte ≠ PTE_V)) →
      ∃ t' m', uvmunmap t va cnt dofree m = .ok t' m' ∧
        (∀ k, k < cnt → ∀ pte, walkRead t (va + k * PGSIZE) = some pte →
          (pte &&& PTE_V ≠ 0 → walkRead t' (va + k * PGSIZE) = some 0 ∧
            (dofree = true → PTE2PA pte ≠ 0 → PTE2PA pte ∈ m'.freeList)) ∧
          (pte &&& PTE_V = 0 → walkRead t' (va + k * PGSIZE) = some pte)) ∧
        (∀ va', (va' / PGSIZE < va / PGSIZE ∨ va / PGSIZE + cnt ≤ va' / PGSIZE) →
          walkRead t' va' = walkRead t va') ∧
        (dofree = false → m'.freeList = m.freeList) ∧
        m'.ram = m.ram) := by
  constructor
  · intro t va cnt dofree m hal
    unfold uvmunmap
    rw [if_pos hal]
  · intro t va cnt dofree m hal hstr
    obtain ⟨t', m', hok⟩ := uvmunmapGo_ok cnt t va m hstr
    obtain ⟨hp, hpres, hnum, hram, fs, hfs, hfree, hmem, hmemr, hlen⟩ :=
      uvmunmapGo_sound cnt t va m t' m' hok
    refine ⟨t', m', ?_, ?_, hpres, ?_, hram⟩
    · unfold uvmunmap
      rw [if_neg (by simp [hal])]
      exact hok
    · intro k hk pte hpte
      obtain ⟨pte0, h1, h2, h3⟩ := hp k hk
      rw [hpte] at h1
      injection h1 with h1
      subst h1
      refine ⟨fun hv => ⟨h2 hv, fun hdf hnz => ?_⟩, fun hv => h3 hv⟩
      rw [hfs]
      exact List.mem_append.mpr (Or.inl (hmemr k hk pte hpte hv hdf hnz))
    · intro hdf
      rw [hfs, hfree hdf]
      rfl



theorem C5_uvmunmap_witness :
    (uvmunmap c5T 4097 1 true c5M = .fatal) ∧
    (∃ t' m', uvmunmap c5T 0 2 true c5M = .ok t' m' ∧
      (∀ k, k < 2 → ∀ pte, walkRead c5T (0 + k * PGSIZE) = some pte →
        (pte &&& PTE_V ≠ 0 → walkRead t' (0 + k * PGSIZE) = some 0 ∧
          (true = true → PTE2PA pte ≠ 0 → PTE2PA pte ∈ m'.freeList)) ∧
        (pte &&& PTE_V = 0 → walkRead t' (0 + k * PGSIZE) = some pte)) ∧
      (∀ va', (va' / PGSIZE < 0 / PGSIZE ∨ 0 / PGSIZE + 2 ≤ va' / PGSIZE) →
        walkRead t' va' = walkRead c5T va') ∧
      (true = false → m'.freeList = c5M.freeList) ∧
      m'.ram = c5M.ram) :=
  ⟨C5_uvmunmap_spec.1 c5T 4097 1 true c5M (by decide),
   C5_uvmunmap_spec.2 c5T 0 2 true c5M (by decide)
    (fun k hk =>
      match k with
      | 0 => ⟨PA2PTE 65536 ||| 19, rfl, Or.inr (by decide)⟩
      | 1 => ⟨0, rfl, Or.inl (by decide)⟩
      | k + 2 => absurd hk (by omega))⟩

/-! ## C2: munmap region bookkeeping on partial overlap -/




/-- C2 counterexample: unmapping the suffix `[8192, 12288)` of the region
`[4096, 12288)` (fileoff 0).  The code shrinks `length` to `low - base` and
leaves `base` and `fileOffset` unchanged; the claim asserts that in this case
`base` and `fileOffset` are advanced by the removed amount, which is false. -/
theorem C2_counterexample :
    ((c2res.getVmas.headD ⟨0, 0, 0, 0, 0⟩).addr = 4096 ∧
      (c2res.getVmas.headD ⟨0, 0, 0, 0, 0⟩).fileoff = 0 ∧
      (c2res.getVmas.headD ⟨0, 0, 0, 0, 0⟩).length = 4096) ∧
    ((c2res.getVmas.headD ⟨0, 0, 0, 0, 0⟩).addr = 4096 + 4096 → False) ∧
    ((c2res.getVmas.headD ⟨0, 0, 0, 0, 0⟩).fileoff = 0 + 4096 → False) := by
  decide

/-- C2 (amended): for an unmap whose page-rounded range `[low, high)`
partially overlaps the (page-aligned, non-wrapping) region of a one-entry
region table and which completes normally: when the range is the region's
prefix (`low = base`, `high < base + length`), the region's `base` and
`fileOffset` are advanced by the removed amount `high - base` and its length
shrunk by the same; when the range is the region's suffix
(`high = base + length`, `low > base`), the region's length is shrunk to
`low - base` and its `base` and `fileOffset` are unchanged. -/
theorem C2_munmap_bookkeeping (wr : Nat → Nat → Int) (addrArg len low high : Nat)
    (t : L2) (v : VMA) (m : Mach) (ret : Int) (vs : List VMA) (t' : L2) (m' : Mach)
    (hlow : low = PGROUNDDOWN addrArg) (hhigh : high = PGROUNDUP (addrArg + len))
    (hv0 : v.addr ≠ 0)
    (hin1 : v.addr ≤ addrArg) (hin2 : addrArg < v.addr + v.length)
    (hsz : v.addr + v.length < 2 ^ 64) (hfo : v.fileoff + v.length < 2 ^ 64)
    (hnw : addrArg + len + PGSIZE ≤ 2 ^ 64)
    (hok : munmap wr addrArg len t [v] m = .ok ret vs t' m') :
    (low = v.addr → high < v.addr + v.length →
      vs = [⟨high, v.length - (high - v.addr), v.prot, v.flags,
             v.fileoff + (high - v.addr)⟩]) ∧
    (high = v.addr + v.length → v.addr < low →
      vs = [⟨v.addr, low - v.addr, v.prot, v.flags, v.fileoff⟩]) := by
  subst hlow
  subst hhigh
  unfold munmap at hok
  simp only [munmapGo] at hok
  rw [if_neg (by push_neg; exact ⟨hv0, hin1, hin2⟩)] at hok
  rcases hwb : (if v.flags &&& MAP_SHARED ≠ 0 ∧ v.prot &&& PROT_WRITE ≠ 0 then
      wbLoop wr ((PGROUNDUP (addrArg + len) : Int) - (PGROUNDDOWN addrArg : Int)) 0
        (v.fileoff + (PGROUNDDOWN addrArg - v.addr)) 0
        ((PGROUNDUP (addrArg + len) - PGROUNDDOWN addrArg) + 1)
    else some (0, 0)) with _ | ⟨ret₀, off₀⟩
  · rw [hwb] at hok
    exact absurd hok (by simp)
  · rw [hwb] at hok
    simp only at hok
    rcases hu : uvmunmap t (PGROUNDDOWN addrArg)
        ((PGROUNDUP (addrArg + len) - PGROUNDDOWN addrArg) / PGSIZE) true m
      with _ | ⟨t₁, m₁⟩
    · rw [hu] at hok
      exact absurd hok (by simp)
    · rw [hu] at hok
      injection hok with e1 e2 e3 e4
      subst e2
      have hub : addrArg + len ≤ PGROUNDUP (addrArg + len) ∧
          PGROUNDUP (addrArg + len) < addrArg + len + PGSIZE := by
        unfold PGROUNDUP PGROUNDDOWN w64 PGSIZE
        unfold PGSIZE at hnw
        omega
      have hlb : PGROUNDDOWN addrArg ≤ addrArg := PGROUNDDOWN_le addrArg
      constructor
      · intro hpre1 hpre2
        rw [if_neg (by
          intro hc
          exact absurd hc.2 (by omega))]
        rw [if_neg (by omega)]
        rw [if_pos hpre2]
        have earith1 : w64 (v.length + w64sub v.addr (PGROUNDUP (addrArg + len)))
            = v.length - (PGROUNDUP (addrArg + len) - v.addr) := by
          unfold w64 w64sub
          have h1 : PGROUNDUP (addrArg + len) < 2 ^ 64 := by omega
          rw [Nat.mod_eq_of_lt h1]
          have h2 : v.addr ≤ PGROUNDUP (addrArg + len) := by omega
          omega
        have earith2 : w64 (v.fileoff + (PGROUNDUP (addrArg + len) - v.addr))
            = v.fileoff + (PGROUNDUP (addrArg + len) - v.addr) := by
          unfold w64
          omega
        rw [earith1, earith2]
      · intro hsuf1 hsuf2
        rw [if_neg (by
          intro hc
          exact absurd hc.1 (by omega))]
        rw [if_pos hsuf2]



theorem C2_munmap_bookkeeping_witness :
    (4096 = c2vma.addr → 8192 < c2vma.addr + c2vma.length →
      c2resPre.getVmas = [⟨8192, c2vma.length - (8192 - c2vma.addr),
        c2vma.prot, c2vma.flags, c2vma.fileoff + (8192 - c2vma.addr)⟩]) ∧
    (8192 = c2vma.addr + c2vma.length → c2vma.addr < 4096 →
      c2resPre.getVmas = [⟨c2vma.addr, 4096 - c2vma.addr, c2vma.prot,
        c2vma.flags, c2vma.fileoff⟩]) :=
  C2_munmap_bookkeeping (fun _ _ => 0) 4096 4096 4096 8192 c2Tpre c2vma c5M
    c2resPre.getRet c2resPre.getVmas c2resPre.getT c2resPre.getM
    (by decide) (by decide) (by decide) (by decide) (by decide) (by decide)
    (by decide) (by decide) rfl

/-! ## C1: the demand-paging fault handler's in-file offset -/





/-- C1 evidence: a fault at 4100 inside the region `base = 4096`,
`length = 4096`, `fileOffset = 4096` succeeds, but the freshly allocated
frame (at 8192) receives the file content at in-file offset
`faultAddr − base = 0` (byte value 111), not at
`faultAddr − base + fileOffset = 4096` (byte value 222) as the claim states:
`mmapapage` computes `map_file_off = addr - vma_low` and never adds
`v->fileoff`. -/
theorem C1_mmapapage_offset_bug :
    (match c1res with | .ok _ _ => true | _ => false) = true ∧
    c1res.getM.ram 8192 = c1fs.data 0 ∧
    c1fs.data 0 = 111 ∧
    c1fs.data (c1vma.fileoff + (PGROUNDDOWN 4100 - c1vma.addr)) = 222 ∧
    (c1res.getM.ram 8192
        = c1fs.data (c1vma.fileoff + (PGROUNDDOWN 4100 - c1vma.addr)) → False) := by
  decide

/-! ## C8: writeback chunk size bound and offset advance -/

/-- The writeback loop is insensitive to what `writei` would answer for
requests larger than `maxChunk`: it never issues such a request. -/
theorem wbLoop_congr (wr wr' : Nat → Nat → Int)
    (hag : ∀ off n1, n1 ≤ maxChunk → wr off n1 = wr' off n1) :
    ∀ (fuel : Nat) (n i : Int) (off : Nat) (ret : Int),
    wbLoop wr n i off ret fuel = wbLoop wr' n i off ret fuel := by
  intro fuel
  induction fuel with
  | zero =>
    intro n i off ret
    rfl
  | succ fuel ih =>
    intro n i off ret
    simp only [wbLoop]
    by_cases hin : i < n
    · rw [if_pos hin, if_pos hin]
      have hbound : (min (n - i) (maxChunk : Int)).toNat ≤ maxChunk := by
        have h1 : min (n - i) (maxChunk : Int) ≤ (maxChunk : Int) := min_le_right _ _
        omega
      rw [hag off _ hbound]
      split
      · rfl
      · split
        · rfl
        · exact ih n _ _ ret
    · rw [if_neg hin, if_neg hin]

theorem munmapGo_congr (wr wr' : Nat → Nat → Int)
    (hag : ∀ off n1, n1 ≤ maxChunk → wr off n1 = wr' off n1)
    (addrArg low high : Nat) (t : L2) (m : Mach) :
    ∀ vmas : List VMA,
    munmapGo wr addrArg low high t m vmas = munmapGo wr' addrArg low high t m vmas := by
  intro vmas
  induction vmas with
  | nil => rfl
  | cons v rest ih =>
    simp only [munmapGo]
    by_cases hc : v.addr = 0 ∨ addrArg < v.addr ∨ v.addr + v.length ≤ addrArg
    · rw [if_pos hc, if_pos hc, ih]
    · rw [if_neg hc, if_neg hc]
      by_cases hw : v.flags &&& MAP_SHARED ≠ 0 ∧ v.prot &&& PROT_WRITE ≠ 0
      · rw [if_pos hw, if_pos hw,
          wbLoop_congr wr wr' hag ((high - low) + 1) _ 0 (v.fileoff + (low - v.addr)) 0]
      · rw [if_neg hw, if_neg hw]

/-- C8: the writeback of `munmap` only ever issues writes of length at most
`((MAXOPBLOCKS - 1 - 1 - 2) / 2) * BSIZE` bytes — `munmap`'s result does not
depend on the oracle's behavior on any larger request — and after a chunk
write returning `0 < r`, the loop continues with the file offset advanced by
exactly `r` (and `r` more bytes accounted). -/
theorem C8_writeback_chunk_bound :
    maxChunk = ((MAXOPBLOCKS - 1 - 1 - 2) / 2) * BSIZE ∧
    (∀ wr wr' : Nat → Nat → Int,
      (∀ off n1, n1 ≤ ((MAXOPBLOCKS - 1 - 1 - 2) / 2) * BSIZE →
        wr off n1 = wr' off n1) →
      ∀ (addrArg len : Nat) (t : L2) (vmas : List VMA) (m : Mach),
      munmap wr addrArg len t vmas m = munmap wr' addrArg len t vmas m) ∧
    (∀ (wr : Nat → Nat → Int) (n i : Int) (off : Nat) (ret : Int) (fuel : Nat)
        (r : Int),
      i < n → r = wr off (min (n - i) (maxChunk : Int)).toNat → 0 < r →
      wbLoop wr n i off ret (fuel + 1) = wbLoop wr n (i + r) (off + r.toNat) ret fuel) := by
  refine ⟨rfl, ?_, ?_⟩
  · intro wr wr' hag addrArg len t vmas m
    exact munmapGo_congr wr wr' hag _ _ _ t m vmas
  · intro wr n i off ret fuel r hin hr hpos
    simp only [wbLoop, if_pos hin, ← hr]
    rw [if_pos hpos]
    rw [if_neg (by omega), if_neg (by omega)]

theorem C8_writeback_chunk_bound_witness :
    (munmap (fun _ _ => 1) 4096 4096 c2Tpre [c2vma] c5M
      = munmap (fun _ _ => 1) 4096 4096 c2Tpre [c2vma] c5M) ∧
    (wbLoop (fun _ _ => 1) 2 0 0 0 4 = wbLoop (fun _ _ => 1) 2 (0 + 1) (0 + (1 : Int).toNat) 0 3) :=
  ⟨C8_writeback_chunk_bound.2.1 (fun _ _ => 1) (fun _ _ => 1) (fun _ _ _ => rfl)
    4096 4096 c2Tpre [c2vma] c5M,
   C8_writeback_chunk_bound.2.2 (fun _ _ => 1) 2 0 0 0 3 1 (by decide) (by decide)
    (by decide)⟩

/-! ## C7: writeback error semantics of munmap -/

theorem wbLoop_ret (wr : Nat → Nat → Int) :
    ∀ (fuel : Nat) (n i : Int) (off : Nat) (ret : Int) (res : Int × Nat),
    wbLoop wr n i off ret fuel = some res → res.1 = ret ∨ res.1 = -1 := by
  intro fuel
  induction fuel with
  | zero =>
    intro n i off ret res h
    exact absurd h (by simp [wbLoop])
  | succ fuel ih =>
    intro n i off ret res h
    simp only [wbLoop] at h
    by_cases hin : i < n
    · rw [if_pos hin] at h
      split at h
      · injection h with h
        rw [← h]
        exact Or.inl rfl
      · split at h
        · injection h with h
          rw [← h]
          exact Or.inr rfl
        · exact ih n _ _ ret res h
    · rw [if_neg hin] at h
      injection h with h
      rw [← h]
      exact Or.inl rfl

theorem wbLoop_no_err (wr : Nat → Nat → Int) (hne : ∀ off n1, wr off n1 ≠ -1) :
    ∀ (fuel : Nat) (n i : Int) (off : Nat) (ret : Int) (res : Int × Nat),
    wbLoop wr n i off ret fuel = some res → res.1 = ret := by
  intro fuel
  induction fuel with
  | zero =>
    intro n i off ret res h
    exact absurd h (by simp [wbLoop])
  | succ fuel ih =>
    intro n i off ret res h
    simp only [wbLoop] at h
    by_cases hin : i < n
    · rw [if_pos hin] at h
      split at h
      · injection h with h
        rw [← h]
      · split at h
        next hr =>
          exact absurd hr (hne _ _)
        · exact ih n _ _ ret res h
    · rw [if_neg hin] at h
      injection h with h
      rw [← h]

theorem wbLoop_total (wr : Nat → Nat → Int)
    (hc : ∀ off n1, wr off n1 = -1 ∨ (0 ≤ wr off n1 ∧ wr off n1 ≤ n1)) :
    ∀ (fuel : Nat) (n i : Int) (off : Nat) (ret : Int),
    (n - i).toNat < fuel → ∃ res, wbLoop wr n i off ret fuel = some res := by
  intro fuel
  induction fuel with
  | zero =>
    intro n i off ret hf
    omega
  | succ fuel ih =>
    intro n i off ret hf
    simp only [wbLoop]
    by_cases hin : i < n
    · rw [if_pos hin]
      rcases hc off (min (n - i) (maxChunk : Int)).toNat with hr | ⟨hr0, hr1⟩
      · rw [hr]
        exact ⟨(-1, off), by norm_num⟩
      · by_cases hz : wr off (min (n - i) (maxChunk : Int)).toNat = 0
        · rw [if_pos hz]
          exact ⟨_, rfl⟩
        · rw [if_neg hz, if_neg (by omega)]
          apply ih
          have hmin : (min (n - i) (maxChunk : Int)).toNat ≤ (n - i).toNat := by
            have : min (n - i) (maxChunk : Int) ≤ n - i := min_le_left _ _
            omega
          omega
    · rw [if_neg hin]
      exact ⟨_, rfl⟩

theorem wbLoop_first_err (wr : Nat → Nat → Int) (n i : Int) (off : Nat)
    (ret : Int) (fuel : Nat) (hin : i < n)
    (hr : wr off (min (n - i) (maxChunk : Int)).toNat = -1) :
    wbLoop wr n i off ret (fuel + 1) = some (-1, off) := by
  simp only [wbLoop, if_pos hin, hr]
  norm_num

/-- Through chunks answered positively, the loop index grows by at least one
per chunk. -/
theorem wbIter_ge (wr : Nat → Nat → Int) (n : Int) :
    ∀ (k : Nat) (i : Int) (off : Nat),
    (∀ j, j < k → 0 < wr (wbIter wr n j i off).2
      (min (n - (wbIter wr n j i off).1) (maxChunk : Int)).toNat) →
    i + (k : Int) ≤ (wbIter wr n k i off).1 := by
  intro k
  induction k with
  | zero =>
    intro i off _
    simp [wbIter]
  | succ k ih =>
    intro i off hpos
    have h0 := hpos 0 (by omega)
    simp only [wbIter] at h0
    have hrec := ih (i + wr off (min (n - i) (maxChunk : Int)).toNat)
      (if 0 < wr off (min (n - i) (maxChunk : Int)).toNat then
        off + (wr off (min (n - i) (maxChunk : Int)).toNat).toNat else off)
      (fun j hj => hpos (j + 1) (by omega))
    show i + ((k : Int) + 1) ≤ (wbIter wr n k
      (i + wr off (min (n - i) (maxChunk : Int)).toNat)
      (if 0 < wr off (min (n - i) (maxChunk : Int)).toNat then
        off + (wr off (min (n - i) (maxChunk : Int)).toNat).toNat else off)).1
    omega

/-- If, after `k` chunks each answered positively while the range was not yet
exhausted, the next in-range chunk is answered `-1`, the loop reports `-1`. -/
theorem wbLoop_err_at (wr : Nat → Nat → Int) :
    ∀ (k fuel : Nat) (n i : Int) (off : Nat) (ret : Int),
    (∀ j, j < k → (wbIter wr n j i off).1 < n ∧
      0 < wr (wbIter wr n j i off).2
        (min (n - (wbIter wr n j i off).1) (maxChunk : Int)).toNat) →
    (wbIter wr n k i off).1 < n →
    wr (wbIter wr n k i off).2
      (min (n - (wbIter wr n k i off).1) (maxChunk : Int)).toNat = -1 →
    k < fuel →
    wbLoop wr n i off ret fuel = some (-1, (wbIter wr n k i off).2) := by
  intro k
  induction k with
  | zero =>
    intro fuel n i off ret _ hin hr hf
    simp only [wbIter] at hin hr ⊢
    rcases fuel with _ | fuel
    · omega
    · simp only [wbLoop, if_pos hin, hr]
      norm_num
  | succ k ih =>
    intro fuel n i off ret hpre hin hr hf
    have h0 := hpre 0 (by omega)
    simp only [wbIter] at h0
    have hoffeq : (if 0 < wr off (min (n - i) (maxChunk : Int)).toNat then
        off + (wr off (min (n - i) (maxChunk : Int)).toNat).toNat else off)
      = off + (wr off (min (n - i) (maxChunk : Int)).toNat).toNat := if_pos h0.2
    simp only [wbIter] at hin hr ⊢
    rw [hoffeq] at hin hr ⊢
    rcases fuel with _ | fuel
    · omega
    · simp only [wbLoop, if_pos h0.1]
      rw [if_neg (by omega), if_neg (by omega), if_pos h0.2]
      exact ih fuel n (i + wr off (min (n - i) (maxChunk : Int)).toNat)
        (off + (wr off (min (n - i) (maxChunk : Int)).toNat).toNat) ret
        (fun j hj => by
          have hx := hpre (j + 1) (by omega)
          simp only [wbIter] at hx
          rw [hoffeq] at hx
          exact hx) hin hr (by omega)

/-- C7: during `munmap` of a found shared writable region, under the `writei`
contract (each chunk answer is `-1` or between 0 and the requested length):
the call completes; its result is 0 or -1; if `writei` never answers `-1`
(including runs where some chunk answers 0, which merely stops writeback) the
result is 0 (success); if any chunk of the run — the first, or the one
reached after `k` chunks answered positively with the range not yet
exhausted — answers `-1`, the result is `-1`; and in every case the
page-table leaves of the unmapped range are cleared and their nonzero frames
pushed on the allocator free list before `munmap` returns. -/
theorem C7_munmap_writeback_errors (wr : Nat → Nat → Int) (addrArg len : Nat)
    (t : L2) (v : VMA) (m : Mach)
    (hv0 : v.addr ≠ 0) (hin1 : v.addr ≤ addrArg) (hin2 : addrArg < v.addr + v.length)
    (hsh : v.flags &&& MAP_SHARED ≠ 0) (hwrt : v.prot &&& PROT_WRITE ≠ 0)
    (hc : ∀ off n1, wr off n1 = -1 ∨ (0 ≤ wr off n1 ∧ wr off n1 ≤ n1))
    (hlh : PGROUNDDOWN addrArg < PGROUNDUP (addrArg + len))
    (hstr : ∀ k, k < (PGROUNDUP (addrArg + len) - PGROUNDDOWN addrArg) / PGSIZE →
      ∃ pte, walkRead t (PGROUNDDOWN addrArg + k * PGSIZE) = some pte ∧
        (pte &&& PTE_V = 0 ∨ PTE_FLAGS pte ≠ PTE_V)) :
    ∃ ret vs' t' m', munmap wr addrArg len t [v] m = .ok ret vs' t' m' ∧
      (ret = 0 ∨ ret = -1) ∧
      ((∀ off n1, wr off n1 ≠ -1) → ret = 0) ∧
      (wr (v.fileoff + (PGROUNDDOWN addrArg - v.addr))
          (min ((PGROUNDUP (addrArg + len) : Int) - (PGROUNDDOWN addrArg : Int))
            (maxChunk : Int)).toNat = -1 → ret = -1) ∧
      (∀ k,
        (∀ j, j < k →
          (wbIter wr ((PGROUNDUP (addrArg + len) : Int) - (PGROUNDDOWN addrArg : Int))
            j 0 (v.fileoff + (PGROUNDDOWN addrArg - v.addr))).1
              < (PGROUNDUP (addrArg + len) : Int) - (PGROUNDDOWN addrArg : Int) ∧
          0 < wr (wbIter wr
              ((PGROUNDUP (addrArg + len) : Int) - (PGROUNDDOWN addrArg : Int))
              j 0 (v.fileoff + (PGROUNDDOWN addrArg - v.addr))).2
            (min (((PGROUNDUP (addrArg + len) : Int) - (PGROUNDDOWN addrArg : Int))
                - (wbIter wr
                  ((PGROUNDUP (addrArg + len) : Int) - (PGROUNDDOWN addrArg : Int))
                  j 0 (v.fileoff + (PGROUNDDOWN addrArg - v.addr))).1)
              (maxChunk : Int)).toNat) →
        (wbIter wr ((PGROUNDUP (addrArg + len) : Int) - (PGROUNDDOWN addrArg : Int))
          k 0 (v.fileoff + (PGROUNDDOWN addrArg - v.addr))).1
            < (PGROUNDUP (addrArg + len) : Int) - (PGROUNDDOWN addrArg : Int) →
        wr (wbIter wr
            ((PGROUNDUP (addrArg + len) : Int) - (PGROUNDDOWN addrArg : Int))
            k 0 (v.fileoff + (PGROUNDDOWN addrArg - v.addr))).2
          (min (((PGROUNDUP (addrArg + len) : Int) - (PGROUNDDOWN addrArg : Int))
              - (wbIter wr
                ((PGROUNDUP (addrArg + len) : Int) - (PGROUNDDOWN addrArg : Int))
                k 0 (v.fileoff + (PGROUNDDOWN addrArg - v.addr))).1)
            (maxChunk : Int)).toNat = -1 →
        ret = -1) ∧
      (∀ k, k < (PGROUNDUP (addrArg + len) - PGROUNDDOWN addrArg) / PGSIZE →
        ∀ pte, walkRead t (PGROUNDDOWN addrArg + k * PGSIZE) = some pte →
          pte &&& PTE_V ≠ 0 →
          walkRead t' (PGROUNDDOWN addrArg + k * PGSIZE) = some 0 ∧
            (PTE2PA pte ≠ 0 → PTE2PA pte ∈ m'.freeList)) := by
  have hfuel : (((PGROUNDUP (addrArg + len) : Int) - (PGROUNDDOWN addrArg : Int)) - 0).toNat
      < (PGROUNDUP (addrArg + len) - PGROUNDDOWN addrArg) + 1 := by
    omega
  obtain ⟨res, hwb⟩ := wbLoop_total wr hc
    ((PGROUNDUP (addrArg + len) - PGROUNDDOWN addrArg) + 1)
    ((PGROUNDUP (addrArg + len) : Int) - (PGROUNDDOWN addrArg : Int)) 0
    (v.fileoff + (PGROUNDDOWN addrArg - v.addr)) 0 hfuel
  obtain ⟨t₁, m₁, hu⟩ := uvmunmapGo_ok
    ((PGROUNDUP (addrArg + len) - PGROUNDDOWN addrArg) / PGSIZE) t
    (PGROUNDDOWN addrArg) m hstr
  have huv : uvmunmap t (PGROUNDDOWN addrArg)
      ((PGROUNDUP (addrArg + len) - PGROUNDDOWN addrArg) / PGSIZE) true m
      = .ok t₁ m₁ := by
    unfold uvmunmap
    rw [if_neg (by simp [PGROUNDDOWN_mod])]
    exact hu
  have heq : munmap wr addrArg len t [v] m
      = .ok res.1 ((if PGROUNDDOWN addrArg = v.addr ∧
            PGROUNDUP (addrArg + len) = v.addr + v.length then
          { v with addr := 0 }
        else if v.addr < PGROUNDDOWN addrArg then
          { v with length := PGROUNDDOWN addrArg - v.addr }
        else if PGROUNDUP (addrArg + len) < v.addr + v.length then
          { v with
            length := w64 (v.length + w64sub v.addr (PGROUNDUP (addrArg + len))),
            fileoff := w64 (v.fileoff + (PGROUNDUP (addrArg + len) - v.addr)),
            addr := PGROUNDUP (addrArg + len) }
        else v) :: []) t₁ m₁ := by
    unfold munmap
    simp only [munmapGo]
    rw [if_neg (by push_neg; exact ⟨hv0, hin1, hin2⟩)]
    rw [if_pos ⟨hsh, hwrt⟩]
    rw [hwb]
    simp only
    rw [huv]
  obtain ⟨hp, hpres, hnum, hram, fs, hfs, hfree, hmem, hmemr, hlen⟩ :=
    uvmunmapGo_sound ((PGROUNDUP (addrArg + len) - PGROUNDDOWN addrArg) / PGSIZE)
      t (PGROUNDDOWN addrArg) m t₁ m₁ hu
  refine ⟨res.1, _, t₁, m₁, heq, ?_, ?_, ?_, ?_, ?_⟩
  · exact wbLoop_ret wr _ _ _ _ _ res hwb
  · intro hne
    exact wbLoop_no_err wr hne _ _ _ _ _ res hwb
  · intro hfirst
    have hz : ((PGROUNDUP (addrArg + len) : Int) - (PGROUNDDOWN addrArg : Int)) - 0
        = (PGROUNDUP (addrArg + len) : Int) - (PGROUNDDOWN addrArg : Int) := by
      omega
    have hfe := wbLoop_first_err wr
      ((PGROUNDUP (addrArg + len) : Int) - (PGROUNDDOWN addrArg : Int)) 0
      (v.fileoff + (PGROUNDDOWN addrArg - v.addr)) 0
      (PGROUNDUP (addrArg + len) - PGROUNDDOWN addrArg)
      (by omega) (by rw [hz]; exact hfirst)
    have hres : some res = some ((-1 : Int), v.fileoff + (PGROUNDDOWN addrArg - v.addr)) :=
      hwb.symm.trans hfe
    rw [Option.some.injEq] at hres
    rw [hres]
  · intro k hpre hkin hkerr
    have hge := wbIter_ge wr
      ((PGROUNDUP (addrArg + len) : Int) - (PGROUNDDOWN addrArg : Int)) k 0
      (v.fileoff + (PGROUNDDOWN addrArg - v.addr))
      (fun j hj => (hpre j hj).2)
    have hkfuel : k < (PGROUNDUP (addrArg + len) - PGROUNDDOWN addrArg) + 1 := by
      omega
    have hfe := wbLoop_err_at wr k
      ((PGROUNDUP (addrArg + len) - PGROUNDDOWN addrArg) + 1)
      ((PGROUNDUP (addrArg + len) : Int) - (PGROUNDDOWN addrArg : Int)) 0
      (v.fileoff + (PGROUNDDOWN addrArg - v.addr)) 0 hpre hkin hkerr hkfuel
    have hres := hwb.symm.trans hfe
    rw [Option.some.injEq] at hres
    rw [hres]
  · intro k hk pte hpte hv
    obtain ⟨pte0, h1, h2, h3⟩ := hp k hk
    rw [hpte] at h1
    injection h1 with h1
    subst h1
    refine ⟨h2 hv, fun hnz => ?_⟩
    rw [hfs]
    exact List.mem_append.mpr (Or.inl (hmemr k hk pte hpte hv rfl hnz))



theorem C7_munmap_writeback_errors_witness :
    ∃ ret vs' t' m', munmap c7wr 4096 4096 c2Tpre [c7vma] c5M = .ok ret vs' t' m' ∧
      (ret = 0 ∨ ret = -1) ∧
      ((∀ off n1, c7wr off n1 ≠ -1) → ret = 0) ∧
      (c7wr (c7vma.fileoff + (PGROUNDDOWN 4096 - c7vma.addr))
          (min ((PGROUNDUP (4096 + 4096) : Int) - (PGROUNDDOWN 4096 : Int))
            (maxChunk : Int)).toNat = -1 → ret = -1) ∧
      (∀ k,
        (∀ j, j < k →
          (wbIter c7wr ((PGROUNDUP (4096 + 4096) : Int) - (PGROUNDDOWN 4096 : Int))
            j 0 (c7vma.fileoff + (PGROUNDDOWN 4096 - c7vma.addr))).1
              < (PGROUNDUP (4096 + 4096) : Int) - (PGROUNDDOWN 4096 : Int) ∧
          0 < c7wr (wbIter c7wr
              ((PGROUNDUP (4096 + 4096) : Int) - (PGROUNDDOWN 4096 : Int))
              j 0 (c7vma.fileoff + (PGROUNDDOWN 4096 - c7vma.addr))).2
            (min (((PGROUNDUP (4096 + 4096) : Int) - (PGROUNDDOWN 4096 : Int))
                - (wbIter c7wr
                  ((PGROUNDUP (4096 + 4096) : Int) - (PGROUNDDOWN 4096 : Int))
                  j 0 (c7vma.fileoff + (PGROUNDDOWN 4096 - c7vma.addr))).1)
              (maxChunk : Int)).toNat) →
        (wbIter c7wr ((PGROUNDUP (4096 + 4096) : Int) - (PGROUNDDOWN 4096 : Int))
          k 0 (c7vma.fileoff + (PGROUNDDOWN 4096 - c7vma.addr))).1
            < (PGROUNDUP (4096 + 4096) : Int) - (PGROUNDDOWN 4096 : Int) →
        c7wr (wbIter c7wr
            ((PGROUNDUP (4096 + 4096) : Int) - (PGROUNDDOWN 4096 : Int))
            k 0 (c7vma.fileoff + (PGROUNDDOWN 4096 - c7vma.addr))).2
          (min (((PGROUNDUP (4096 + 4096) : Int) - (PGROUNDDOWN 4096 : Int))
              - (wbIter c7wr
                ((PGROUNDUP (4096 + 4096) : Int) - (PGROUNDDOWN 4096 : Int))
                k 0 (c7vma.fileoff + (PGROUNDDOWN 4096 - c7vma.addr))).1)
            (maxChunk : Int)).toNat = -1 →
        ret = -1) ∧
      (∀ k, k < (PGROUNDUP (4096 + 4096) - PGROUNDDOWN 4096) / PGSIZE →
        ∀ pte, walkRead c2Tpre (PGROUNDDOWN 4096 + k * PGSIZE) = some pte →
          pte &&& PTE_V ≠ 0 →
          walkRead t' (PGROUNDDOWN 4096 + k * PGSIZE) = some 0 ∧
            (PTE2PA pte ≠ 0 → PTE2PA pte ∈ m'.freeList)) :=
  C7_munmap_writeback_errors c7wr 4096 4096 c2Tpre c7vma c5M
    (by decide) (by decide) (by decide) (by decide) (by decide)
    (fun off n1 => Or.inr ⟨le_refl 0, Int.natCast_nonneg n1⟩)
    (by decide)
    (fun k hk =>
      match k with
      | 0 => ⟨0, rfl, Or.inl (by decide)⟩
      | k + 1 => absurd hk (by
          unfold PGROUNDUP PGROUNDDOWN w64 PGSIZE
          omega))

/-! ## C10: translation failure on non-user and reserved-unbacked pages -/

theorem walkRead_lt {t : L2} {va pte : Nat} (h : walkRead t va = some pte) :
    va < MAXVA := by
  by_contra hge
  rw [walkRead_ge (Nat.le_of_not_lt hge)] at h
  exact absurd h (by simp)

theorem walkaddr_zero_of {t : L2} {va pte : Nat}
    (h : walkRead t va = some pte)
    (hc : pte &&& PTE_U = 0 ∨ PTE2PA pte = 0) : walkaddr t va = 0 := by
  unfold walkaddr
  rw [if_neg (Nat.not_le_of_lt (walkRead_lt h)), h]
  show (if pte &&& PTE_V = 0 then 0
    else if pte &&& PTE_U = 0 then 0 else PTE2PA pte) = 0
  by_cases hv : pte &&& PTE_V = 0
  · rw [if_pos hv]
  · rw [if_neg hv]
    rcases hc with hc | hc
    · rw [if_pos hc]
    · by_cases hu : pte &&& PTE_U = 0
      · rw [if_pos hu]
      · rw [if_neg hu]
        exact hc

theorem samePage_round {a i : Nat} (h : i < PGSIZE - a % PGSIZE) :
    PGROUNDDOWN (a + i) = PGROUNDDOWN a := by
  unfold PGROUNDDOWN PGSIZE at *
  omega

theorem copyoutGo_err :
    ∀ (fuel : Nat) (t : L2) (dstva src len : Nat) (m : Mach),
    (∃ i, i < len ∧ walkaddr t (PGROUNDDOWN (dstva + i)) = 0) →
    ∃ m', copyoutGo t dstva src len m fuel = .err m' := by
  intro fuel
  induction fuel with
  | zero =>
    intro t dstva src len m _
    exact ⟨m, rfl⟩
  | succ fuel ih =>
    intro t dstva src len m ⟨i, hi, hbad⟩
    simp only [copyoutGo]
    rw [if_neg (by omega)]
    by_cases hpa : walkaddr t (PGROUNDDOWN dstva) = 0
    · rw [if_pos hpa]
      exact ⟨m, rfl⟩
    · rw [if_neg hpa]
      apply ih
      have hoff : dstva - PGROUNDDOWN dstva = dstva % PGSIZE := by
        unfold PGROUNDDOWN PGSIZE
        omega
      have hn : i ≥ min (PGSIZE - (dstva - PGROUNDDOWN dstva)) len := by
        by_contra hlt
        push_neg at hlt
        rw [hoff] at hlt
        rw [samePage_round (by omega)] at hbad
        exact hpa hbad
      have hnmin : min (PGSIZE - (dstva - PGROUNDDOWN dstva)) len
          = PGSIZE - (dstva - PGROUNDDOWN dstva) := by
        rcases Nat.le_total (PGSIZE - (dstva - PGROUNDDOWN dstva)) len with hle | hle
        · exact Nat.min_eq_left hle
        · have := Nat.min_eq_right hle
          omega
      refine ⟨i - min (PGSIZE - (dstva - PGROUNDDOWN dstva)) len, by omega, ?_⟩
      have haddr : PGROUNDDOWN dstva + PGSIZE
            + (i - min (PGSIZE - (dstva - PGROUNDDOWN dstva)) len)
          = dstva + i := by
        rw [hnmin]
        have h1 : PGROUNDDOWN dstva ≤ dstva := PGROUNDDOWN_le dstva
        have h2 : dstva - PGROUNDDOWN dstva < PGSIZE := sub_PGROUNDDOWN_lt dstva
        omega
      rw [haddr]
      exact hbad

theorem copyinGo_err :
    ∀ (fuel : Nat) (t : L2) (dst srcva len : Nat) (m : Mach),
    (∃ i, i < len ∧ walkaddr t (PGROUNDDOWN (srcva + i)) = 0) →
    ∃ m', copyinGo t dst srcva len m fuel = .err m' := by
  intro fuel
  induction fuel with
  | zero =>
    intro t dst srcva len m _
    exact ⟨m, rfl⟩
  | succ fuel ih =>
    intro t dst srcva len m ⟨i, hi, hbad⟩
    simp only [copyinGo]
    rw [if_neg (by omega)]
    by_cases hpa : walkaddr t (PGROUNDDOWN srcva) = 0
    · rw [if_pos hpa]
      exact ⟨m, rfl⟩
    · rw [if_neg hpa]
      apply ih
      have hoff : srcva - PGROUNDDOWN srcva = srcva % PGSIZE := by
        unfold PGROUNDDOWN PGSIZE
        omega
      have hn : i ≥ min (PGSIZE - (srcva - PGROUNDDOWN srcva)) len := by
        by_contra hlt
        push_neg at hlt
        rw [hoff] at hlt
        rw [samePage_round (by omega)] at hbad
        exact hpa hbad
      have hnmin : min (PGSIZE - (srcva - PGROUNDDOWN srcva)) len
          = PGSIZE - (srcva - PGROUNDDOWN srcva) := by
        rcases Nat.le_total (PGSIZE - (srcva - PGROUNDDOWN srcva)) len with hle | hle
        · exact Nat.min_eq_left hle
        · have := Nat.min_eq_right hle
          omega
      refine ⟨i - min (PGSIZE - (srcva - PGROUNDDOWN srcva)) len, by omega, ?_⟩
      have haddr : PGROUNDDOWN srcva + PGSIZE
            + (i - min (PGSIZE - (srcva - PGROUNDDOWN srcva)) len)
          = srcva + i := by
        rw [hnmin]
        have h1 : PGROUNDDOWN srcva ≤ srcva := PGROUNDDOWN_le srcva
        have h2 : srcva - PGROUNDDOWN srcva < PGSIZE := sub_PGROUNDDOWN_lt srcva
        omega
      rw [haddr]
      exact hbad

/-! ## C6: copyinstr boundary behavior -/


theorem cisInner_not_got :
    ∀ (n : Nat) (ram : Nat → Nat) (p dst maxr : Nat),
    (cisInner ram p dst maxr n).got = false →
    (cisInner ram p dst maxr n).maxr = maxr - n ∧
    (cisInner ram p dst maxr n).dst = dst + n := by
  intro n
  induction n with
  | zero =>
    intro ram p dst maxr _
    exact ⟨rfl, rfl⟩
  | succ n ih =>
    intro ram p dst maxr hgot
    simp only [cisInner] at hgot ⊢
    by_cases hz : ram p = 0
    · rw [if_pos hz] at hgot
      exact absurd hgot (by simp)
    · rw [if_neg hz] at hgot ⊢
      obtain ⟨h1, h2⟩ := ih _ _ _ _ hgot
      rw [h1, h2]
      omega

theorem cisInner_got :
    ∀ (n : Nat) (ram : Nat → Nat) (p dst maxr : Nat), n ≤ maxr →
    (cisInner ram p dst maxr n).got = true →
    ∃ c, c < maxr ∧ (cisInner ram p dst maxr n).ram (dst + c) = 0 := by
  intro n
  induction n with
  | zero =>
    intro ram p dst maxr _ hgot
    exact absurd hgot (by simp [cisInner])
  | succ n ih =>
    intro ram p dst maxr hle hgot
    simp only [cisInner] at hgot ⊢
    by_cases hz : ram p = 0
    · rw [if_pos hz] at hgot ⊢
      exact ⟨0, by omega, by simp⟩
    · rw [if_neg hz] at hgot ⊢
      obtain ⟨c, hc, hram⟩ := ih _ _ _ _ (by omega) hgot
      exact ⟨c + 1, by omega, by rw [show dst + (c + 1) = dst + 1 + c by omega]; exact hram⟩

theorem cisInner_window :
    ∀ (n : Nat) (ram base : Nat → Nat) (p dst maxr : Nat),
    (∀ a, ram a = base a ∨ ram a ≠ 0) →
    (∀ i, i < n → base (p + i) ≠ 0) →
    (cisInner ram p dst maxr n).got = false ∧
    (∀ a, (cisInner ram p dst maxr n).ram a = base a ∨
      (cisInner ram p dst maxr n).ram a ≠ 0) := by
  intro n
  induction n with
  | zero =>
    intro ram base p dst maxr hinv _
    exact ⟨rfl, hinv⟩
  | succ n ih =>
    intro ram base p dst maxr hinv hwind
    have hp : ram p ≠ 0 := by
      rcases hinv p with h | h
      · rw [h]
        have := hwind 0 (by omega)
        simpa using this
      · exact h
    simp only [cisInner, if_neg hp]
    apply ih
    · intro a
      by_cases ha : a = dst
      · rw [ha]
        simp [hp]
      · simp only [if_neg ha]
        exact hinv a
    · intro i hi
      have := hwind (i + 1) (by omega)
      rw [show p + (i + 1) = p + 1 + i by omega] at this
      exact this

theorem copyinstrGo_ok :
    ∀ (fuel : Nat) (t : L2) (dst srcva maxr : Nat) (m m' : Mach),
    copyinstrGo t dst srcva maxr m fuel = .ok m' →
    ∃ j, j < maxr ∧ m'.ram (dst + j) = 0 := by
  intro fuel
  induction fuel with
  | zero =>
    intro t dst srcva maxr m m' h
    exact absurd h (by simp [copyinstrGo])
  | succ fuel ih =>
    intro t dst srcva maxr m m' h
    simp only [copyinstrGo] at h
    by_cases hmax : maxr = 0
    · rw [if_pos hmax] at h
      exact absurd h (by simp)
    rw [if_neg hmax] at h
    by_cases hpa : walkaddr t (PGROUNDDOWN srcva) = 0
    · rw [if_pos hpa] at h
      exact absurd h (by simp)
    rw [if_neg hpa] at h
    have hnle : min (PGSIZE - (srcva - PGROUNDDOWN srcva)) maxr ≤ maxr :=
      min_le_right _ _
    by_cases hgot : (cisInner m.ram
        (walkaddr t (PGROUNDDOWN srcva) + (srcva - PGROUNDDOWN srcva)) dst maxr
        (min (PGSIZE - (srcva - PGROUNDDOWN srcva)) maxr)).got = true
    · rw [if_pos hgot] at h
      injection h with h
      obtain ⟨c, hc, hram⟩ := cisInner_got _ _ _ _ _ hnle hgot
      refine ⟨c, hc, ?_⟩
      rw [← h]
      exact hram
    · rw [if_neg hgot] at h
      obtain ⟨hm, hd⟩ := cisInner_not_got _ _ _ _ _ (by simpa using hgot)
      obtain ⟨j, hj, hram⟩ := ih _ _ _ _ _ _ h
      rw [hm] at hj
      rw [hd] at hram
      refine ⟨min (PGSIZE - (srcva - PGROUNDDOWN srcva)) maxr + j, by omega, ?_⟩
      rw [show dst + (min (PGSIZE - (srcva - PGROUNDDOWN srcva)) maxr + j)
        = dst + min (PGSIZE - (srcva - PGROUNDDOWN srcva)) maxr + j by omega]
      exact hram

theorem copyinstrGo_nonull :
    ∀ (fuel : Nat) (t : L2) (dst srcva maxr : Nat) (m : Mach) (base : Nat → Nat),
    (∀ a, m.ram a = base a ∨ m.ram a ≠ 0) →
    (∀ i, i < maxr → ∀ pa, tl t (srcva + i) = some pa → base pa ≠ 0) →
    ∃ m', copyinstrGo t dst srcva maxr m fuel = .err m' := by
  intro fuel
  induction fuel with
  | zero =>
    intro t dst srcva maxr m base _ _
    exact ⟨m, rfl⟩
  | succ fuel ih =>
    intro t dst srcva maxr m base hinv H
    simp only [copyinstrGo]
    by_cases hmax : maxr = 0
    · rw [if_pos hmax]
      exact ⟨m, rfl⟩
    rw [if_neg hmax]
    by_cases hpa : walkaddr t (PGROUNDDOWN srcva) = 0
    · rw [if_pos hpa]
      exact ⟨m, rfl⟩
    rw [if_neg hpa]
    have hoff : srcva - PGROUNDDOWN srcva = srcva % PGSIZE := by
      unfold PGROUNDDOWN PGSIZE
      omega
    have hle : PGROUNDDOWN srcva ≤ srcva := PGROUNDDOWN_le srcva
    have hwind : ∀ i, i < min (PGSIZE - (srcva - PGROUNDDOWN srcva)) maxr →
        base (walkaddr t (PGROUNDDOWN srcva) + (srcva - PGROUNDDOWN srcva) + i) ≠ 0 := by
      intro i hilt
      have hi1 : i < PGSIZE - (srcva - PGROUNDDOWN srcva) :=
        lt_of_lt_of_le hilt (min_le_left _ _)
      have hi2 : i < maxr := lt_of_lt_of_le hilt (min_le_right _ _)
      have hpage : PGROUNDDOWN (srcva + i) = PGROUNDDOWN srcva := by
        apply samePage_round
        omega
      apply H i hi2
      unfold tl
      rw [hpage, if_neg hpa]
      congr 1
      omega
    obtain ⟨hgot, hinv'⟩ := cisInner_window
      (min (PGSIZE - (srcva - PGROUNDDOWN srcva)) maxr) m.ram base
      (walkaddr t (PGROUNDDOWN srcva) + (srcva - PGROUNDDOWN srcva)) dst maxr hinv hwind
    rw [if_neg (by rw [hgot]; simp)]
    obtain ⟨hm, hd⟩ := cisInner_not_got _ _ _ _ _ hgot
    apply ih t _ _ _ _ base hinv'
    intro i' hi' pa hpa'
    rw [hm] at hi'
    by_cases hcase : min (PGSIZE - (srcva - PGROUNDDOWN srcva)) maxr
        = PGSIZE - (srcva - PGROUNDDOWN srcva)
    · have hlt2 : PGSIZE - (srcva - PGROUNDDOWN srcva) + i' < maxr := by
        rw [hcase] at hi'
        omega
      apply H (PGSIZE - (srcva - PGROUNDDOWN srcva) + i') hlt2 pa
      have haddr : srcva + (PGSIZE - (srcva - PGROUNDDOWN srcva) + i')
          = PGROUNDDOWN srcva + PGSIZE + i' := by
        have h2 : srcva - PGROUNDDOWN srcva < PGSIZE := sub_PGROUNDDOWN_lt srcva
        omega
      rw [haddr]
      exact hpa'
    · have : min (PGSIZE - (srcva - PGROUNDDOWN srcva)) maxr = maxr := by
        rcases Nat.le_total (PGSIZE - (srcva - PGROUNDDOWN srcva)) maxr with h | h
        · exact absurd (Nat.min_eq_left h) hcase
        · exact Nat.min_eq_right h
      omega

/-- If the scan reaches a page whose translation is 0 — some byte index `i`
within `max` lies on an untranslatable page while every earlier mapped byte
is nonzero, so no null stops the scan first — `copyinstr` fails, whatever
lies beyond that page. -/
theorem copyinstrGo_badpage :
    ∀ (fuel : Nat) (t : L2) (dst srcva maxr : Nat) (m : Mach) (base : Nat → Nat),
    (∀ a, m.ram a = base a ∨ m.ram a ≠ 0) →
    (∃ i, i < maxr ∧ walkaddr t (PGROUNDDOWN (srcva + i)) = 0 ∧
      ∀ i', i' < i → ∀ pa, tl t (srcva + i') = some pa → base pa ≠ 0) →
    ∃ m', copyinstrGo t dst srcva maxr m fuel = .err m' := by
  intro fuel
  induction fuel with
  | zero =>
    intro t dst srcva maxr m base _ _
    exact ⟨m, rfl⟩
  | succ fuel ih =>
    intro t dst srcva maxr m base hinv hex
    obtain ⟨i, hi, hbad, hpre⟩ := hex
    simp only [copyinstrGo]
    rw [if_neg (by omega)]
    by_cases hpa : walkaddr t (PGROUNDDOWN srcva) = 0
    · rw [if_pos hpa]
      exact ⟨m, rfl⟩
    rw [if_neg hpa]
    have hoff : srcva - PGROUNDDOWN srcva = srcva % PGSIZE := by
      unfold PGROUNDDOWN PGSIZE
      omega
    have hle : PGROUNDDOWN srcva ≤ srcva := PGROUNDDOWN_le srcva
    have hinotfirst : PGSIZE - (srcva - PGROUNDDOWN srcva) ≤ i := by
      by_contra hlt
      have hpage : PGROUNDDOWN (srcva + i) = PGROUNDDOWN srcva := by
        apply samePage_round
        omega
      rw [hpage] at hbad
      exact hpa hbad
    have hnmin : min (PGSIZE - (srcva - PGROUNDDOWN srcva)) maxr
        = PGSIZE - (srcva - PGROUNDDOWN srcva) := Nat.min_eq_left (by omega)
    have hwind : ∀ j, j < min (PGSIZE - (srcva - PGROUNDDOWN srcva)) maxr →
        base (walkaddr t (PGROUNDDOWN srcva) + (srcva - PGROUNDDOWN srcva) + j)
          ≠ 0 := by
      intro j hjlt
      have hj1 : j < PGSIZE - (srcva - PGROUNDDOWN srcva) :=
        lt_of_lt_of_le hjlt (min_le_left _ _)
      have hpage : PGROUNDDOWN (srcva + j) = PGROUNDDOWN srcva := by
        apply samePage_round
        omega
      apply hpre j (by omega)
      unfold tl
      rw [hpage, if_neg hpa]
      congr 1
      omega
    obtain ⟨hgot, hinv'⟩ := cisInner_window
      (min (PGSIZE - (srcva - PGROUNDDOWN srcva)) maxr) m.ram base
      (walkaddr t (PGROUNDDOWN srcva) + (srcva - PGROUNDDOWN srcva)) dst maxr
      hinv hwind
    rw [if_neg (by rw [hgot]; simp)]
    obtain ⟨hm, hd⟩ := cisInner_not_got _ _ _ _ _ hgot
    apply ih t _ _ _ _ base hinv'
    refine ⟨i - (PGSIZE - (srcva - PGROUNDDOWN srcva)), ?_, ?_, ?_⟩
    · rw [hm, hnmin]
      omega
    · have haddr : PGROUNDDOWN srcva + PGSIZE
          + (i - (PGSIZE - (srcva - PGROUNDDOWN srcva))) = srcva + i := by
        have h1 : PGROUNDDOWN srcva ≤ srcva := PGROUNDDOWN_le srcva
        have h2 : srcva - PGROUNDDOWN srcva < PGSIZE := sub_PGROUNDDOWN_lt srcva
        omega
      rw [haddr]
      exact hbad
    · intro i2 hi2 pa hpa2
      have haddr : PGROUNDDOWN srcva + PGSIZE + i2
          = srcva + (PGSIZE - (srcva - PGROUNDDOWN srcva) + i2) := by
        have h1 : PGROUNDDOWN srcva ≤ srcva := PGROUNDDOWN_le srcva
        have h2 : srcva - PGROUNDDOWN srcva < PGSIZE := sub_PGROUNDDOWN_lt srcva
        omega
      rw [haddr] at hpa2
      exact hpre (PGSIZE - (srcva - PGROUNDDOWN srcva) + i2) (by omega) pa hpa2

/-- C6: `copyinstr` fails when the source contains no null byte within `max`
bytes over the mapped pages; it fails when the scan reaches an untranslatable
page — some byte within `max` lies on such a page with every earlier mapped
byte nonzero — whatever lies beyond (in particular an unmapped first page
fails immediately); and every successful return leaves a null byte in the
destination buffer within the first `max` positions — there is no successful
return with a non-terminated destination. -/
theorem C6_copyinstr_boundary :
    (∀ (t : L2) (dst srcva maxr : Nat) (m : Mach),
      (∀ i, i < maxr → ∀ pa, tl t (srcva + i) = some pa → m.ram pa ≠ 0) →
      ∃ m', copyinstr t dst srcva maxr m = .err m') ∧
    (∀ (t : L2) (dst srcva maxr : Nat) (m : Mach),
      (∃ i, i < maxr ∧ walkaddr t (PGROUNDDOWN (srcva + i)) = 0 ∧
        ∀ i', i' < i → ∀ pa, tl t (srcva + i') = some pa → m.ram pa ≠ 0) →
      ∃ m', copyinstr t dst srcva maxr m = .err m') ∧
    (∀ (t : L2) (dst srcva maxr : Nat) (m : Mach), maxr ≠ 0 →
      walkaddr t (PGROUNDDOWN srcva) = 0 →
      copyinstr t dst srcva maxr m = .err m) ∧
    (∀ (t : L2) (dst srcva maxr : Nat) (m m' : Mach),
      copyinstr t dst srcva maxr m = .ok m' →
      ∃ j, j < maxr ∧ m'.ram (dst + j) = 0) := by
  refine ⟨?_, ?_, ?_, ?_⟩
  · intro t dst srcva maxr m H
    exact copyinstrGo_nonull (maxr + 1) t dst srcva maxr m m.ram
      (fun a => Or.inl rfl) H
  · intro t dst srcva maxr m hex
    exact copyinstrGo_badpage (maxr + 1) t dst srcva maxr m m.ram
      (fun a => Or.inl rfl) hex
  · intro t dst srcva maxr m hmax hpa
    unfold copyinstr
    rcases maxr with _ | maxr
    · exact absurd rfl hmax
    · simp only [copyinstrGo]
      rw [if_neg (by omega), if_pos hpa]
  · intro t dst srcva maxr m m' h
    exact copyinstrGo_ok (maxr + 1) t dst srcva maxr m m' h



theorem C6_copyinstr_boundary_witness :
    (∃ m', copyinstr c6T 50000 100 2 c6M = .err m') ∧
    (∃ m', copyinstr c6T 50000 200 4000 c6M = .err m') ∧
    (copyinstr c6T 50000 (2 ^ 40) 5 c6M = .err c6M) ∧
    (∃ j, j < 10 ∧ (copyinstr c6T 50000 100 10 c6M).getM.ram (50000 + j) = 0) :=
  ⟨C6_copyinstr_boundary.1 c6T 50000 100 2 c6M
    (fun i hi pa hpa => by
      match i, hi with
      | 0, _ => rw [show tl c6T (100 + 0) = some 65636 from rfl] at hpa; injection hpa with hpa; rw [← hpa]; decide
      | 1, _ => rw [show tl c6T (100 + 1) = some 65637 from rfl] at hpa; injection hpa with hpa; rw [← hpa]; decide),
   C6_copyinstr_boundary.2.1 c6T 50000 200 4000 c6M
    ⟨3896, by omega, by decide, fun i' hi' pa hpa => by
      have hpg : PGROUNDDOWN (200 + i') = 0 := by
        unfold PGROUNDDOWN PGSIZE
        omega
      unfold tl at hpa
      rw [hpg, show walkaddr c6T 0 = 65536 from by decide,
        if_neg (by decide)] at hpa
      rw [Option.some.injEq] at hpa
      subst hpa
      show (if 65536 + (200 + i' - 0) = 65638 then (0 : Nat) else 7) ≠ 0
      rw [if_neg (by omega)]
      decide⟩,
   C6_copyinstr_boundary.2.2.1 c6T 50000 (2 ^ 40) 5 c6M (by decide) (by decide),
   C6_copyinstr_boundary.2.2.2 c6T 50000 100 10 c6M
    ((copyinstr c6T 50000 100 10 c6M).getM) rfl⟩

/-- C10: the translation lookup `walkaddr` returns 0 not only for unmapped
pages but for every leaf lacking the user bit and for every reserved-unbacked
mmap page (valid, `PTE_M`-tagged, frame address zero); consequently `copyout`
and `copyin` report failure whenever any page touched by the requested range
translates to 0, and `copyinstr` reports failure whenever any page its scan
touches does — the first page immediately, and any later page reached with
every earlier mapped byte nonzero — no fault-in happens and no such page
contributes bytes. -/
theorem C10_translation_gates_copies :
    (∀ (t : L2) (va pte : Nat), walkRead t va = some pte →
      pte &&& PTE_U = 0 ∨ PTE2PA pte = 0 → walkaddr t va = 0) ∧
    (∀ (t : L2) (va : Nat), walkRead t va = some (PTE_V ||| PTE_U ||| PTE_M) →
      walkaddr t va = 0) ∧
    (∀ (t : L2) (dstva src len : Nat) (m : Mach),
      (∃ i, i < len ∧ walkaddr t (PGROUNDDOWN (dstva + i)) = 0) →
      ∃ m', copyout t dstva src len m = .err m') ∧
    (∀ (t : L2) (dst srcva len : Nat) (m : Mach),
      (∃ i, i < len ∧ walkaddr t (PGROUNDDOWN (srcva + i)) = 0) →
      ∃ m', copyin t dst srcva len m = .err m') ∧
    (∀ (t : L2) (dst srcva maxr : Nat) (m : Mach), maxr ≠ 0 →
      walkaddr t (PGROUNDDOWN srcva) = 0 →
      copyinstr t dst srcva maxr m = .err m) ∧
    (∀ (t : L2) (dst srcva maxr : Nat) (m : Mach),
      (∃ i, i < maxr ∧ walkaddr t (PGROUNDDOWN (srcva + i)) = 0 ∧
        ∀ i', i' < i → ∀ pa, tl t (srcva + i') = some pa → m.ram pa ≠ 0) →
      ∃ m', copyinstr t dst srcva maxr m = .err m') := by
  refine ⟨fun t va pte h hc => walkaddr_zero_of h hc,
    fun t va h => walkaddr_zero_of h (Or.inr (by decide)), ?_, ?_, ?_, ?_⟩
  · intro t dstva src len m hex
    exact copyoutGo_err (len + 1) t dstva src len m hex
  · intro t dst srcva len m hex
    exact copyinGo_err (len + 1) t dst srcva len m hex
  · intro t dst srcva maxr m hmax hpa
    unfold copyinstr
    rcases maxr with _ | maxr
    · exact absurd rfl hmax
    · simp only [copyinstrGo]
      rw [if_neg (by omega), if_pos hpa]
  · intro t dst srcva maxr m hex
    exact copyinstrGo_badpage (maxr + 1) t dst srcva maxr m m.ram
      (fun a => Or.inl rfl) hex


theorem C10_translation_gates_copies_witness :
    (walkaddr c10T 0 = 0) ∧
    (∃ m', copyout c10T 0 50000 8 c5M = .err m') ∧
    (∃ m', copyin c10T 50000 0 8 c5M = .err m') ∧
    (copyinstr c10T 50000 0 8 c5M = .err c5M) ∧
    (∃ m', copyinstr c10T2 50000 200 4000 c6M = .err m') :=
  ⟨C10_translation_gates_copies.2.1 c10T 0 rfl,
   C10_translation_gates_copies.2.2.1 c10T 0 50000 8 c5M
    ⟨0, by decide, by decide⟩,
   C10_translation_gates_copies.2.2.2.1 c10T 50000 0 8 c5M
    ⟨0, by decide, by decide⟩,
   C10_translation_gates_copies.2.2.2.2.1 c10T 50000 0 8 c5M (by decide) (by decide),
   C10_translation_gates_copies.2.2.2.2.2 c10T2 50000 200 4000 c6M
    ⟨3896, by omega, by decide, fun i' hi' pa hpa => by
      have hpg : PGROUNDDOWN (200 + i') = 0 := by
        unfold PGROUNDDOWN PGSIZE
        omega
      unfold tl at hpa
      rw [hpg, show walkaddr c10T2 0 = 65536 from by decide,
        if_neg (by decide)] at hpa
      rw [Option.some.injEq] at hpa
      subst hpa
      show (if 65536 + (200 + i' - 0) = 65638 then (0 : Nat) else 7) ≠ 0
      rw [if_neg (by omega)]
      decide⟩⟩

/-! ## C3: mappages / walk round trip -/

theorem mappagesGo_reads :
    ∀ (n : Nat) (t : L2) (a pa perm : Nat) (m : Mach) (t' : L2) (m' : Mach),
    pa + n * PGSIZE ≤ 2 ^ 64 →
    mappagesGo t a pa perm m n = .ok t' m' →
    (∀ k, k < n → walkRead t' (a + k * PGSIZE)
      = some (PA2PTE (pa + k * PGSIZE) ||| perm ||| PTE_V)) ∧
    (∀ va' x, (va' / PGSIZE < a / PGSIZE ∨ a / PGSIZE + n ≤ va' / PGSIZE) →
      walkRead t va' = some x → walkRead t' va' = some x) := by
  intro n
  induction n with
  | zero =>
    intro t a pa perm m t' m' hnw h
    simp only [mappagesGo] at h
    injection h with e1 e2
    subst e1
    exact ⟨fun k hk => absurd hk (by omega), fun va' x _ hx => hx⟩
  | succ n ih =>
    intro t a pa perm m t' m' hnw h
    simp only [mappagesGo] at h
    rcases hw : walk t a true m with _ | ⟨t₀, m₀⟩ | ⟨pte, set, m₀⟩ <;> rw [hw] at h
    · exact absurd h (by simp)
    · exact absurd h (by simp)
    simp only at h
    split at h
    next hv => exact absurd h (by simp)
    next hv =>
      obtain ⟨hsame, hother, hsum, hram, hsfx⟩ := walk_slot_spec hw
      have hpg : ∀ k : Nat, (a + PGSIZE + k * PGSIZE) = a + (k + 1) * PGSIZE := by
        intro k
        ring
      have hpidx1 : (a + PGSIZE) / PGSIZE = a / PGSIZE + 1 := by
        have := pageIdx_add a 1
        simpa using this
      by_cases hn : n = 0
      · subst hn
        rw [if_pos rfl] at h
        injection h with e1 e2
        subst e1
        refine ⟨fun k hk => ?_, fun va' x hout hx => ?_⟩
        · match k, hk with
          | 0, _ =>
            simp only [Nat.zero_mul, Nat.add_zero]
            exact hsame _
        · exact (hother _ va' (by omega)).2 x hx
      · rw [if_neg hn] at h
        have hw64 : w64 (pa + PGSIZE) = pa + PGSIZE := by
          apply Nat.mod_eq_of_lt
          unfold PGSIZE at hnw ⊢
          omega
        rw [hw64] at h
        obtain ⟨ih1, ih2⟩ := ih _ (a + PGSIZE) (pa + PGSIZE) perm m₀ t' m'
          (by unfold PGSIZE at hnw ⊢; omega) h
        refine ⟨fun k hk => ?_, fun va' x hout hx => ?_⟩
        · match k with
          | 0 =>
            simp only [Nat.zero_mul, Nat.add_zero]
            apply ih2 a _ (by omega)
            exact hsame _
          | k + 1 =>
            have := ih1 k (by omega)
            rw [hpg k] at this
            rw [show pa + PGSIZE + k * PGSIZE = pa + (k + 1) * PGSIZE by ring] at this
            exact this
        · apply ih2 va' x (by omega)
          exact (hother _ va' (by omega)).2 x hx

/-- C3 counterexample: `mapPages` with the non-page-aligned physical address
`pa = 8` succeeds, but the installed leaf decodes to physical address 0, not
8: `PA2PTE` discards the low 12 bits, so the round-trip equality of the claim
fails for unaligned `pa`. -/
theorem C3_counterexample :
    (match mappages emptyL2 0 4096 8 2 ⟨[12288, 16384], fun _ => 0⟩ with
      | .ok _ _ => true
      | _ => false) = true ∧
    walkRead (mappages emptyL2 0 4096 8 2 ⟨[12288, 16384], fun _ => 0⟩).getT 0
      = some 3 ∧
    (PTE2PA (pteOf (mappages emptyL2 0 4096 8 2 ⟨[12288, 16384], fun _ => 0⟩).getT 0)
        = 8 → False) := by
  decide

/-- C3 (amended): for page-aligned `va` and `pa`, a flag field `perm < 1024`,
and a physical range that does not overflow 64 bits, if
`mappages(t, va, size, pa, perm)` succeeds then for every page index
`k < npages va size` the level-0 slot of `va + k*PGSIZE` holds a valid leaf
whose decoded physical address is `pa + k*PGSIZE` and whose flag bits are
exactly `perm` together with `PTE_V`. -/
theorem C3_mappages_walk_roundtrip (t : L2) (va size pa perm : Nat) (m : Mach)
    (t' : L2) (m' : Mach)
    (hva : va % PGSIZE = 0) (hpa : pa % PGSIZE = 0)
    (hnw : pa + npages va size * PGSIZE ≤ 2 ^ 64) (hperm : perm < 1024)
    (hok : mappages t va size pa perm m = .ok t' m') :
    ∀ k, k < npages va size →
      ∃ pte, walkRead t' (va + k * PGSIZE) = some pte ∧
        pte &&& PTE_V ≠ 0 ∧ PTE2PA pte = pa + k * PGSIZE ∧
        PTE_FLAGS pte = perm ||| PTE_V := by
  unfold mappages at hok
  rw [PGROUNDDOWN_aligned hva] at hok
  dsimp only at hok
  split at hok
  · exact absurd hok (by simp)
  next hnl =>
    have hnp : npages va size
        = (PGROUNDDOWN (w64 (va + size + (2 ^ 64 - 1))) - va) / PGSIZE + 1 := by
      unfold npages
      rw [PGROUNDDOWN_aligned hva]
    rw [← hnp] at hok
    obtain ⟨h1, _⟩ := mappagesGo_reads (npages va size) t va pa perm m t' m' hnw hok
    intro k hk
    have hrd := h1 k hk
    have hpak : (pa + k * PGSIZE) % PGSIZE = 0 := by
      unfold PGSIZE at hpa ⊢
      omega
    have hpaklt : pa + k * PGSIZE < 2 ^ 64 := by
      unfold PGSIZE at hnw ⊢
      omega
    have hq : perm ||| PTE_V < 1024 := by
      have : perm < 2 ^ 10 := by omega
      have hv1 : PTE_V < 2 ^ 10 := by decide
      have := Nat.or_lt_two_pow this hv1
      omega
    have hform : PA2PTE (pa + k * PGSIZE) ||| perm ||| PTE_V
        = (pa + k * PGSIZE) / 4096 * 1024 + (perm ||| PTE_V) := by
      rw [Nat.or_assoc]
      exact pa2pte_or (pa + k * PGSIZE) (perm ||| PTE_V) hq
    refine ⟨PA2PTE (pa + k * PGSIZE) ||| perm ||| PTE_V, hrd, ?_, ?_, ?_⟩
    · rw [hform]
      rw [show PTE_V = (1 : Nat) from rfl]
      rw [and_one_arith, Nat.and_one_is_mod]
      have hodd : (perm ||| 1) % 2 = 1 := Nat.or_mod_two_eq_one.mpr (Or.inr rfl)
      omega
    · rw [hform]
      have h4 : (pa + k * PGSIZE) / 4096 * 4096 = pa + k * PGSIZE := by
        unfold PGSIZE at hpak ⊢
        omega
      rw [pte2pa_arith _ _ hq (by rw [h4]; exact hpaklt), h4]
    · rw [hform]
      exact pte_flags_arith _ _ hq


theorem C3_mappages_walk_roundtrip_witness :
    1 < npages 0 8192 ∧
    ∃ pte, walkRead c3res.getT (0 + 1 * PGSIZE) = some pte ∧
      pte &&& PTE_V ≠ 0 ∧ PTE2PA pte = 65536 + 1 * PGSIZE ∧
      PTE_FLAGS pte = 18 ||| PTE_V :=
  ⟨by decide,
    C3_mappages_walk_roundtrip emptyL2 0 8192 65536 18 ⟨[4096, 8192], fun _ => 0⟩
      c3res.getT c3res.getM (by decide) (by decide) (by decide) (by decide) rfl
      1 (by decide)⟩

/-! ## C4: uvmalloc unwinds completely on failure -/

theorem PGROUNDUP_aligned {a : Nat} (h : a % PGSIZE = 0)
    (h2 : a + PGSIZE ≤ 2 ^ 64) : PGROUNDUP a = a := by
  unfold PGROUNDUP PGROUNDDOWN w64 PGSIZE at *
  omega

theorem wfAlloc_drop {m m' : Mach} (h : wfAlloc m) (k : Nat)
    (hd : m'.freeList = List.drop k m.freeList) : wfAlloc m' := by
  intro f hf
  rw [hd] at hf
  exact h f (List.mem_of_mem_drop hf)

/-- The PTE that `uvmalloc` installs for a fresh frame: valid, a leaf, and
decoding back to the frame. -/
theorem freshPte_facts (f : Nat) (hfa : f % PGSIZE = 0)
    (hflt : f < 2 ^ 64) :
    (PA2PTE f ||| (PTE_W ||| PTE_X ||| PTE_R ||| PTE_U) ||| PTE_V) &&& PTE_V ≠ 0 ∧
    PTE_FLAGS (PA2PTE f ||| (PTE_W ||| PTE_X ||| PTE_R ||| PTE_U) ||| PTE_V) ≠ PTE_V ∧
    PTE2PA (PA2PTE f ||| (PTE_W ||| PTE_X ||| PTE_R ||| PTE_U) ||| PTE_V) = f := by
  have hq : ((PTE_W ||| PTE_X ||| PTE_R ||| PTE_U) ||| PTE_V) = 31 := by decide
  have hform : PA2PTE f ||| (PTE_W ||| PTE_X ||| PTE_R ||| PTE_U) ||| PTE_V
      = f / 4096 * 1024 + 31 := by
    rw [Nat.or_assoc, hq]
    exact pa2pte_or f 31 (by omega)
  have h4 : f / 4096 * 4096 = f := by
    unfold PGSIZE at hfa
    omega
  refine ⟨?_, ?_, ?_⟩
  · rw [hform]
    rw [show PTE_V = (1 : Nat) from rfl, and_one_arith]
    decide
  · rw [hform, pte_flags_arith _ _ (by omega)]
    decide
  · rw [hform, pte2pa_arith _ _ (by omega) (by rw [h4]; exact hflt), h4]

/-- The single-page shape of `mappages` as used by `uvmalloc` and `uvmcopy`. -/
theorem mappages_onePage {t : L2} {a f perm : Nat} {m : Mach}
    (hal : a % PGSIZE = 0) :
    mappages t a PGSIZE f perm m = .fatal ∨
    (∃ t₂ m₂, mappages t a PGSIZE f perm m = .fail t₂ m₂ ∧
      walk t a true m = .zero t₂ m₂) ∨
    (∃ pte set m₂, walk t a true m = .slot pte set m₂ ∧ pte &&& PTE_V = 0 ∧
      mappages t a PGSIZE f perm m = .ok (set (PA2PTE f ||| perm ||| PTE_V)) m₂) := by
  unfold mappages
  dsimp only
  by_cases hwrap : PGROUNDDOWN (w64 (a + PGSIZE + (2 ^ 64 - 1))) < PGROUNDDOWN a
  · rw [if_pos hwrap]
    exact Or.inl rfl
  · rw [if_neg hwrap]
    have hlast : PGROUNDDOWN (w64 (a + PGSIZE + (2 ^ 64 - 1))) = PGROUNDDOWN a := by
      rw [PGROUNDDOWN_aligned hal] at hwrap ⊢
      unfold PGROUNDDOWN w64 PGSIZE at hwrap ⊢
      unfold PGSIZE at hal
      omega
    rw [hlast, PGROUNDDOWN_aligned hal]
    rw [show (a - a) / PGSIZE + 1 = 1 by simp]
    simp only [mappagesGo]
    rcases hw : walk t a true m with _ | ⟨t₀, m₀⟩ | ⟨pte, set, m₀⟩
    · exact Or.inl rfl
    · exact Or.inr (Or.inl ⟨t₀, m₀, rfl, rfl⟩)
    · by_cases hv : pte &&& PTE_V = 0
      · refine Or.inr (Or.inr ⟨pte, set, m₀, rfl, hv, ?_⟩)
        simp [hv]
      · refine Or.inl ?_
        simp [hv]

/-- The unwinding call `uvmdealloc(t, o + p*PGSIZE, o)`: clears exactly the
`p` pages `[o, o + p*PGSIZE)` (all currently mapped), preserves every other
translation, keeps the table count, and returns the `p` frames. -/
theorem uvmdealloc_unwind (o p : Nat) (ho : o % PGSIZE = 0) (t : L2) (m : Mach)
    (hdone : ∀ j, j < p → ∃ pte, walkRead t (o + j * PGSIZE) = some pte ∧
      pte &&& PTE_V ≠ 0 ∧ PTE_FLAGS pte ≠ PTE_V ∧ PTE2PA pte ≠ 0) :
    ∃ sz t' m', uvmdealloc t (o + p * PGSIZE) o m = .ok sz t' m' ∧
      (∀ j, j < p → walkRead t' (o + j * PGSIZE) = some 0) ∧
      (∀ va, (va / PGSIZE < o / PGSIZE ∨ o / PGSIZE + p ≤ va / PGSIZE) →
        walkRead t' va = walkRead t va) ∧
      numTables t' = numTables t ∧
      m'.ram = m.ram ∧
      m'.freeList.length = m.freeList.length + p := by
  by_cases hp : p = 0
  · subst hp
    refine ⟨o + 0 * PGSIZE, t, m, ?_, fun j hj => absurd hj (by omega),
      fun va _ => rfl, rfl, rfl, by omega⟩
    unfold uvmdealloc
    rw [if_pos (by omega)]
  · have ho64 : o < MAXVA := by
      obtain ⟨pte, h1, _⟩ := hdone 0 (by omega)
      have := walkRead_lt h1
      simpa using this
    have hamax : o + (p - 1) * PGSIZE < MAXVA := by
      obtain ⟨pte, h1, _⟩ := hdone (p - 1) (by omega)
      exact walkRead_lt h1
    have hup_o : PGROUNDUP o = o :=
      PGROUNDUP_aligned ho (by unfold MAXVA at ho64; unfold PGSIZE; omega)
    have haal : (o + p * PGSIZE) % PGSIZE = 0 := by
      unfold PGSIZE at ho ⊢
      omega
    have hup_a : PGROUNDUP (o + p * PGSIZE) = o + p * PGSIZE := by
      apply PGROUNDUP_aligned haal
      unfold MAXVA at hamax
      unfold PGSIZE at hamax ⊢
      omega
    obtain ⟨t', m', hok⟩ := uvmunmapGo_ok p t o m
      (fun k hk => by
        obtain ⟨pte, h1, h2, h3, _⟩ := hdone k hk
        exact ⟨pte, h1, Or.inr h3⟩)
    obtain ⟨hp1, hpres, hnum, hram, fs, hfs, _, _, _, hlen⟩ :=
      uvmunmapGo_sound p t o m t' m' hok
    refine ⟨o, t', m', ?_, ?_, hpres, hnum, hram, ?_⟩
    · unfold uvmdealloc
      rw [if_neg (by unfold PGSIZE; omega)]
      rw [hup_o, hup_a]
      rw [if_pos (by unfold PGSIZE; omega)]
      rw [show (o + p * PGSIZE - o) / PGSIZE = p by unfold PGSIZE; omega]
      unfold uvmunmap
      rw [if_neg (by simp [ho])]
      rw [hok]
    · intro j hj
      obtain ⟨pte, h1, h2, h3, h4⟩ := hdone j hj
      obtain ⟨pte0, g1, g2, g3⟩ := hp1 j hj
      rw [h1, Option.some.injEq] at g1
      subst g1
      exact g2 h2
    · rw [hfs]
      have hflen : fs.length = p := by
        apply hlen ?_ rfl
        intro k hk pte h1
        obtain ⟨pte0, g1, g2, g3, g4⟩ := hdone k hk
        rw [h1, Option.some.injEq] at g1
        subst g1
        exact ⟨g2, g4⟩
      simp [hflen]
      omega

theorem walkRead_congr (t : L2) {va va' : Nat} (h : va / PGSIZE = va' / PGSIZE) :
    walkRead t va = walkRead t va' := by
  unfold walkRead
  rw [pxF_congr 2 h, pxF_congr 1 h, pxF_congr 0 h]
  have hm : MAXVA ≤ va ↔ MAXVA ≤ va' := by
    unfold MAXVA PGSIZE at *
    omega
  by_cases hva : MAXVA ≤ va
  · rw [if_pos hva, if_pos (hm.mp hva)]
  · rw [if_neg hva, if_neg (fun hc => hva (hm.mpr hc))]

/-- Failure analysis of the `uvmalloc` loop: past an aligned base `o` with the
first `p` pages mapped to live leaves (as the loop itself maps them), a run
that returns failure clears those `p` pages, preserves the valid bit of every
page outside `[o, o + p*PGSIZE)`, and hands back exactly `p` more free frames
than the net number of page-table pages it created. -/
theorem uvmallocGo_fail (o : Nat) (ho : o % PGSIZE = 0) :
    ∀ (n p : Nat) (t : L2) (m : Mach) (t' : L2) (m' : Mach),
    wfAlloc m →
    (∀ j, j < p → ∃ pte, walkRead t (o + j * PGSIZE) = some pte ∧
      pte &&& PTE_V ≠ 0 ∧ PTE_FLAGS pte ≠ PTE_V ∧ PTE2PA pte ≠ 0) →
    uvmallocGo t (o + p * PGSIZE) o m n = .fail t' m' →
    (∀ j, j < p → walkRead t' (o + j * PGSIZE) = some 0) ∧
    (∀ va, (va / PGSIZE < o / PGSIZE ∨ o / PGSIZE + p ≤ va / PGSIZE) →
      pteOf t' va &&& PTE_V = pteOf t va &&& PTE_V) ∧
    m'.freeList.length + numTables t' = m.freeList.length + numTables t + p := by
  intro n
  induction n with
  | zero =>
    intro p t m t' m' hwf hdone hfail
    exact absurd hfail (by simp [uvmallocGo])
  | succ n ih =>
    intro p t m t' m' hwf hdone hfail
    simp only [uvmallocGo] at hfail
    rcases kalloc_cases m with ⟨hnil, hke⟩ | ⟨mem, rest, hcons, hke⟩
    · rw [hke] at hfail
      obtain ⟨sz, td, md, heq, hclr, hpres, hnum, hram, hlen⟩ :=
        uvmdealloc_unwind o p ho t m hdone
      rw [heq] at hfail
      simp at hfail
      obtain ⟨ht', hm'⟩ := hfail
      subst ht'
      subst hm'
      refine ⟨hclr, fun va hva => ?_, by omega⟩
      unfold pteOf
      rw [hpres va hva]
    · have hmwf := hwf mem (by rw [hcons]; exact List.mem_cons_self mem rest)
      obtain ⟨hm0, hma, hmlt⟩ := hmwf
      rw [hke] at hfail
      simp only [if_neg hm0] at hfail
      have haal : (o + p * PGSIZE) % PGSIZE = 0 := by
        unfold PGSIZE at ho ⊢
        omega
      have hm2list : (zeroPage mem { m with freeList := rest }).freeList = rest := rfl
      have hwf2 : wfAlloc (zeroPage mem { m with freeList := rest }) := by
        intro f hf
        rw [hm2list] at hf
        exact hwf f (by rw [hcons]; exact List.mem_cons_of_mem mem hf)
      have hmlen : m.freeList.length = rest.length + 1 := by
        rw [hcons]
        simp
      rcases @mappages_onePage t (o + p * PGSIZE) mem
          (PTE_W ||| PTE_X ||| PTE_R ||| PTE_U)
          (zeroPage mem { m with freeList := rest }) haal with
        hfat | ⟨t₂, m₃, hmf, hwz⟩ | ⟨pte, set, m₃, hws, hv, hmok⟩
      · rw [hfat] at hfail
        exact absurd hfail (by simp)
      · rw [hmf] at hfail
        simp only at hfail
        obtain ⟨hz1, hz2, hz3, hzram, hzdrop⟩ := walk_zero_spec hwz
          (fun f hf => (hwf2 f hf).1)
        have hdone2 : ∀ j, j < p → ∃ pte, walkRead t₂ (o + j * PGSIZE) = some pte ∧
            pte &&& PTE_V ≠ 0 ∧ PTE_FLAGS pte ≠ PTE_V ∧ PTE2PA pte ≠ 0 := by
          intro j hj
          obtain ⟨pte, h1, h2, h3, h4⟩ := hdone j hj
          exact ⟨pte, hz2 _ _ h1, h2, h3, h4⟩
        obtain ⟨sz, td, md, heq, hclr, hpres, hnum, hram, hlen⟩ :=
          uvmdealloc_unwind o p ho t₂ (kfree mem m₃) hdone2
        rw [heq] at hfail
        simp at hfail
        obtain ⟨ht', hm'⟩ := hfail
        subst ht'
        subst hm'
        refine ⟨hclr, fun va hva => ?_, ?_⟩
        · have hz := hz1 va
          unfold pteOf at hz ⊢
          rw [hpres va hva, hz]
        · have hkl : (kfree mem m₃).freeList.length = m₃.freeList.length + 1 := by
            simp [kfree]
          rw [hm2list] at hz3
          omega
      · rw [hmok] at hfail
        simp only at hfail
        rw [show o + p * PGSIZE + PGSIZE = o + (p + 1) * PGSIZE by ring] at hfail
        obtain ⟨hs1, hs2, hs3, hsram, k, hsdrop⟩ := walk_slot_spec hws
        have hwf3 : wfAlloc m₃ :=
          wfAlloc_drop hwf2 k (by rw [hsdrop, hm2list])
        obtain ⟨ff1, ff2, ff3⟩ := freshPte_facts mem hma hmlt
        have hdone3 : ∀ j, j < p + 1 → ∃ pte,
            walkRead (set (PA2PTE mem ||| (PTE_W ||| PTE_X ||| PTE_R ||| PTE_U)
              ||| PTE_V)) (o + j * PGSIZE) = some pte ∧
            pte &&& PTE_V ≠ 0 ∧ PTE_FLAGS pte ≠ PTE_V ∧ PTE2PA pte ≠ 0 := by
          intro j hj
          by_cases hjp : j = p
          · subst hjp
            exact ⟨_, hs1 _, ff1, ff2, by rw [ff3]; exact hm0⟩
          · obtain ⟨pte, h1, h2, h3, h4⟩ := hdone j (by omega)
            have hne : (o + j * PGSIZE) / PGSIZE ≠ (o + p * PGSIZE) / PGSIZE := by
              rw [pageIdx_add, pageIdx_add]
              omega
            exact ⟨pte, ((hs2 _ _ hne).2) pte h1, h2, h3, h4⟩
        obtain ⟨ic, ipres, isum⟩ := ih (p + 1) _ m₃ t' m' hwf3 hdone3 hfail
        refine ⟨fun j hj => ic j (by omega), fun va hva => ?_, ?_⟩
        · by_cases hlast : va / PGSIZE = o / PGSIZE + p
          · have hsame : va / PGSIZE = (o + p * PGSIZE) / PGSIZE := by
              rw [pageIdx_add]
              exact hlast
            have h1 : walkRead t' va = walkRead t' (o + p * PGSIZE) :=
              walkRead_congr t' hsame
            have h2 : walkRead t va = walkRead t (o + p * PGSIZE) :=
              walkRead_congr t hsame
            have h3 := ic p (by omega)
            have h4 := walk_slot_pteOf hws
            unfold pteOf
            rw [h1, h2, h3]
            unfold pteOf at h4
            rw [h4, hv]
            decide
          · have hipres := ipres va (by omega)
            have hne : va / PGSIZE ≠ (o + p * PGSIZE) / PGSIZE := by
              rw [pageIdx_add]
              omega
            rw [hipres, (hs2 _ va hne).1]
        · rw [hm2list] at hs3
          have := hs3 (PA2PTE mem ||| (PTE_W ||| PTE_X ||| PTE_R ||| PTE_U) ||| PTE_V)
          omega





/-- **C4.** `uvmalloc(t, oldsz, newsz)` that fails partway (a `kalloc`
returning 0, for a data frame or for a page-table page inside `walk`)
unwinds before reporting failure: the failure return (`growproc`'s 0) is the
`.fail` result, the valid bit of every page's translation is exactly what it
was before the call — so every page it had mapped is unmapped again and no
mapped page appears outside the old image — and the free list ends with
exactly as many frames as it started with, net of the page-table pages the
call created (every data frame taken was given back). -/
theorem C4_uvmalloc_partial_failure (t : L2) (oldsz newsz : Nat) (m : Mach)
    (t' : L2) (m' : Mach) (hwf : wfAlloc m)
    (hfail : uvmalloc t oldsz newsz m = .fail t' m') :
    (∀ va, pteOf t' va &&& PTE_V = pteOf t va &&& PTE_V) ∧
    m'.freeList.length + numTables t' = m.freeList.length + numTables t := by
  unfold uvmalloc at hfail
  by_cases hlt : newsz < oldsz
  · rw [if_pos hlt] at hfail
    exact absurd hfail (by simp)
  · rw [if_neg hlt] at hfail
    simp only at hfail
    have ho : PGROUNDUP oldsz % PGSIZE = 0 := by
      unfold PGROUNDUP PGROUNDDOWN w64 PGSIZE
      omega
    rcases hg : uvmallocGo t (PGROUNDUP oldsz) (PGROUNDUP oldsz) m
        ((newsz - PGROUNDUP oldsz + PGSIZE - 1) / PGSIZE) with
      _ | ⟨t₂, m₂⟩ | ⟨t₂, m₂⟩
    · rw [hg] at hfail
      exact absurd hfail (by simp)
    · rw [hg] at hfail
      simp at hfail
      obtain ⟨h1, h2⟩ := hfail
      subst h1
      subst h2
      obtain ⟨_, hpres, hsum⟩ := uvmallocGo_fail (PGROUNDUP oldsz) ho
        ((newsz - PGROUNDUP oldsz + PGSIZE - 1) / PGSIZE) 0 t m t₂ m₂ hwf
        (fun j hj => absurd hj (by omega))
        (by rw [show PGROUNDUP oldsz + 0 * PGSIZE = PGROUNDUP oldsz by ring]
            exact hg)
      exact ⟨fun va => hpres va (by omega), by omega⟩
    · rw [hg] at hfail
      exact absurd hfail (by simp)

theorem C4_uvmalloc_partial_failure_witness :
    wfAlloc c4M ∧
    (∀ va, pteOf c4resT va &&& PTE_V = pteOf emptyL2 va &&& PTE_V) ∧
    c4resM.freeList.length + numTables c4resT
      = c4M.freeList.length + numTables emptyL2 := by
  have hwf : wfAlloc c4M := by
    intro f hf
    simp [c4M] at hf
    subst hf
    refine ⟨by decide, by decide, by norm_num⟩
  have h := C4_uvmalloc_partial_failure emptyL2 0 4096 c4M c4resT c4resM hwf rfl
  exact ⟨hwf, h.1, h.2⟩

/-! ## C9: uvmcopy -/


theorem freedCount_congr : ∀ (n : Nat) (t t' : L2) (a : Nat),
    (∀ j, j < n → pteOf t' (a + j * PGSIZE) = pteOf t (a + j * PGSIZE)) →
    freedCount t' a n = freedCount t a n := by
  intro n
  induction n with
  | zero =>
    intro t t' a _
    rfl
  | succ n ih =>
    intro t t' a h
    have h0 := h 0 (by omega)
    simp only [Nat.zero_mul, Nat.add_zero] at h0
    show (if pteOf t' a &&& PTE_V ≠ 0 ∧ PTE2PA (pteOf t' a) ≠ 0 then 1 else 0)
        + freedCount t' (a + PGSIZE) n
      = (if pteOf t a &&& PTE_V ≠ 0 ∧ PTE2PA (pteOf t a) ≠ 0 then 1 else 0)
        + freedCount t (a + PGSIZE) n
    rw [h0, ih t t' (a + PGSIZE) (fun j hj => by
      have hx := h (j + 1) (by omega)
      rw [show a + (j + 1) * PGSIZE = a + PGSIZE + j * PGSIZE by ring] at hx
      exact hx)]

/-- A freeing `uvmunmap` run grows the free list by exactly `freedCount`. -/
theorem uvmunmapGo_freed : ∀ (n : Nat) (t : L2) (a : Nat) (m : Mach)
    (t' : L2) (m' : Mach),
    uvmunmapGo t a true m n = .ok t' m' →
    m'.freeList.length = m.freeList.length + freedCount t a n := by
  intro n
  induction n with
  | zero =>
    intro t a m t' m' h
    simp only [uvmunmapGo] at h
    rw [UnmapRes.ok.injEq] at h
    obtain ⟨h1, h2⟩ := h
    subst h1
    subst h2
    rfl
  | succ n ih =>
    intro t a m t' m' h
    simp only [uvmunmapGo] at h
    rcases hw : walk t a false m with _ | ⟨tz, mz⟩ | ⟨pte, set, m₀⟩ <;> rw [hw] at h
    · exact absurd h (by simp)
    · exact absurd h (by simp)
    · simp only at h
      have hpte := walk_slot_pteOf hw
      show m'.freeList.length = m.freeList.length
        + ((if pteOf t a &&& PTE_V ≠ 0 ∧ PTE2PA (pteOf t a) ≠ 0 then 1 else 0)
           + freedCount t (a + PGSIZE) n)
      by_cases hv : pte &&& PTE_V = 0
      · rw [if_pos hv] at h
        have hrec := ih t (a + PGSIZE) m t' m' h
        rw [if_neg (by rw [hpte]; simp [hv])]
        omega
      · rw [if_neg hv] at h
        by_cases hfl : PTE_FLAGS pte = PTE_V
        · rw [if_pos hfl] at h
          exact absurd h (by simp)
        · rw [if_neg hfl] at h
          have hcongr : freedCount (set 0) (a + PGSIZE) n = freedCount t (a + PGSIZE) n := by
            apply freedCount_congr
            intro j hj
            have hne : (a + PGSIZE + j * PGSIZE) / PGSIZE ≠ a / PGSIZE := by
              rw [show a + PGSIZE + j * PGSIZE = a + (j + 1) * PGSIZE by ring,
                pageIdx_add]
              omega
            exact ((walk_slot_spec hw).2.1 0 _ hne).1
          by_cases hpa : PTE2PA pte = 0
          · rw [if_neg (by simp [hpa])] at h
            have hrec := ih (set 0) (a + PGSIZE) m t' m' h
            rw [if_neg (by rw [hpte]; simp [hpa])]
            omega
          · rw [if_pos ⟨trivial, hpa⟩] at h
            have hrec := ih (set 0) (a + PGSIZE) (kfree (PTE2PA pte) m) t' m' h
            rw [if_pos (by rw [hpte]; exact ⟨hv, hpa⟩)]
            have hkl : (kfree (PTE2PA pte) m).freeList.length
                = m.freeList.length + 1 := by
              simp [kfree]
            omega

theorem PTE2PA_mod (pte : Nat) : PTE2PA pte % PGSIZE = 0 := by
  unfold PTE2PA w64 PGSIZE
  rw [Nat.shiftLeft_eq]
  have h4096 : (2 : Nat) ^ 12 = 4096 := by decide
  rw [h4096]
  omega

theorem PTE_FLAGS_lt (pte : Nat) : PTE_FLAGS pte < 1024 := by
  unfold PTE_FLAGS
  have h : (1023 : Nat) = 2 ^ 10 - 1 := by decide
  rw [h, Nat.and_pow_two_sub_one_eq_mod]
  omega

theorem numTables_empty : numTables emptyL2 = 0 := by
  simp [numTables, emptyL2, wTbl]

theorem freedCount_snoc : ∀ (n : Nat) (t : L2) (a : Nat),
    freedCount t a (n + 1) = freedCount t a n
      + (if pteOf t (a + n * PGSIZE) &&& PTE_V ≠ 0
            ∧ PTE2PA (pteOf t (a + n * PGSIZE)) ≠ 0 then 1 else 0) := by
  intro n
  induction n with
  | zero =>
    intro t a
    show (if pteOf t a &&& PTE_V ≠ 0 ∧ PTE2PA (pteOf t a) ≠ 0 then 1 else 0)
        + freedCount t (a + PGSIZE) 0
      = freedCount t a 0
        + (if pteOf t (a + 0 * PGSIZE) &&& PTE_V ≠ 0
              ∧ PTE2PA (pteOf t (a + 0 * PGSIZE)) ≠ 0 then 1 else 0)
    simp [freedCount]
  | succ n ih =>
    intro t a
    show (if pteOf t a &&& PTE_V ≠ 0 ∧ PTE2PA (pteOf t a) ≠ 0 then 1 else 0)
        + freedCount t (a + PGSIZE) (n + 1)
      = ((if pteOf t a &&& PTE_V ≠ 0 ∧ PTE2PA (pteOf t a) ≠ 0 then 1 else 0)
          + freedCount t (a + PGSIZE) n)
        + (if pteOf t (a + (n + 1) * PGSIZE) &&& PTE_V ≠ 0
              ∧ PTE2PA (pteOf t (a + (n + 1) * PGSIZE)) ≠ 0 then 1 else 0)
    rw [ih t (a + PGSIZE),
      show a + PGSIZE + n * PGSIZE = a + (n + 1) * PGSIZE by ring]
    omega

theorem pteOf_of_walkRead {t : L2} {va x : Nat} (h : walkRead t va = some x) :
    pteOf t va = x := by
  unfold pteOf
  rw [h]
  rfl

/-- Two distinct page-aligned frames have disjoint byte ranges. -/
theorem aligned_range_disjoint {f p b : Nat} (hf : f % PGSIZE = 0)
    (hp : p % PGSIZE = 0) (hne : f ≠ p) (hb : b < PGSIZE) :
    ¬(f ≤ p + b ∧ p + b < f + PGSIZE) := by
  unfold PGSIZE at *
  omega

/-- One run of the `uvmcopy` loop from page `c` with `n` pages to go, the
destination `nt` still empty at and above page `c`, and the free list
well-formed, duplicate-free and disjoint from the source's frames.  On
success: every page the source holds invalid or tagged `PTE_M` stays absent
from the destination, every live source page is mapped to a frame taken from
the free list with the source's flag bits and a byte-for-byte copy of its
content, destination translations below `c` and at or above `c + n` are
unchanged, RAM outside the consumed frames is untouched, and the free list
becomes a suffix of itself.  On a reported failure: the destination holds no
valid mapping at all, and the free list regains every data frame consumed
(net of created page-table pages) plus the frames already mapped below `c`. -/
theorem uvmcopyGo_spec (old : L2) :
    ∀ (n c : Nat) (nt : L2) (m : Mach),
    wfAlloc m → m.freeList.Nodup →
    (∀ f ∈ m.freeList, ∀ j pte, walkRead old (j * PGSIZE) = some pte →
      f ≠ PTE2PA pte) →
    (∀ va, c ≤ va / PGSIZE → pteOf nt va = 0) →
    (match uvmcopyGo old nt (c * PGSIZE) m n with
     | .fatal => True
     | .fail nt' m' =>
        (∀ va, pteOf nt' va &&& PTE_V = 0) ∧
        m'.freeList.length + numTables nt'
          = m.freeList.length + numTables nt + freedCount nt 0 c
     | .ok nt' m' =>
        (∀ j, c ≤ j → j < c + n → ∀ pte,
          walkRead old (j * PGSIZE) = some pte →
          ((pte &&& PTE_V = 0 ∨ PTE_FLAGS pte &&& PTE_M ≠ 0) →
            pteOf nt' (j * PGSIZE) = 0) ∧
          (pte &&& PTE_V ≠ 0 → PTE_FLAGS pte &&& PTE_M = 0 →
            ∃ f, f ∈ m.freeList ∧
              walkRead nt' (j * PGSIZE)
                = some (PA2PTE f ||| PTE_FLAGS pte ||| PTE_V) ∧
              ∀ b, b < PGSIZE → m'.ram (f + b) = m.ram (PTE2PA pte + b))) ∧
        (∀ va, va / PGSIZE < c →
          pteOf nt' va = pteOf nt va ∧
          ∀ x, walkRead nt va = some x → walkRead nt' va = some x) ∧
        (∀ va, c + n ≤ va / PGSIZE → pteOf nt' va = 0) ∧
        (∀ x, (∀ f ∈ m.freeList, ¬(f ≤ x ∧ x < f + PGSIZE)) →
          m'.ram x = m.ram x) ∧
        (∃ k, m'.freeList = m.freeList.drop k)) := by
  intro n
  induction n with
  | zero =>
    intro c nt m hwf hnd hdisj hout
    show (∀ j, c ≤ j → j < c + 0 → _) ∧ _
    refine ⟨fun j hj1 hj2 => absurd (Nat.lt_of_le_of_lt hj1 hj2) (by omega),
      fun va _ => ⟨rfl, fun x hx => hx⟩,
      fun va h => hout va (by omega),
      fun x _ => rfl, 0, (List.drop_zero _).symm⟩
  | succ n ih =>
    intro c nt m hwf hnd hdisj hout
    have hal : (c * PGSIZE) % PGSIZE = 0 := by
      unfold PGSIZE
      omega
    have hcp : c * PGSIZE / PGSIZE = c := by
      unfold PGSIZE
      omega
    simp only [uvmcopyGo]
    rcases hw : walk old (c * PGSIZE) false m with _ | ⟨tz, mz⟩ | ⟨pte₀, set₀, m₀⟩
    · trivial
    · trivial
    · dsimp only
      have hrd : walkRead old (c * PGSIZE) = some pte₀ := walk_false_slot_read hw
      by_cases hv : pte₀ &&& PTE_V = 0
      · rw [if_pos hv,
          show c * PGSIZE + PGSIZE = (c + 1) * PGSIZE by ring]
        have H := ih (c + 1) nt m hwf hnd hdisj (fun va h => hout va (by omega))
        rcases hres : uvmcopyGo old nt ((c + 1) * PGSIZE) m n with
          _ | ⟨nt', m'⟩ | ⟨nt', m'⟩ <;> rw [hres] at H
        · trivial
        · obtain ⟨Hinv, Hsum⟩ := H
          refine ⟨Hinv, ?_⟩
          rw [freedCount_snoc c nt 0] at Hsum
          have h0 : pteOf nt (0 + c * PGSIZE) = 0 := by
            apply hout
            rw [Nat.zero_add, hcp]
          rw [h0] at Hsum
          simp at Hsum
          exact Hsum
        · obtain ⟨Hpg, Hlow, Hhi, Hram, Hdrop⟩ := H
          refine ⟨?_, fun va h => Hlow va (by omega),
            fun va h => Hhi va (by omega), Hram, Hdrop⟩
          intro j hj1 hj2 pte hpte
          by_cases hjc : j = c
          · subst hjc
            rw [hrd] at hpte
            rw [Option.some.injEq] at hpte
            subst hpte
            refine ⟨fun _ => ?_, fun hV _ => absurd hv (by simpa using hV)⟩
            have hLc := (Hlow (j * PGSIZE) (by rw [hcp]; omega)).1
            rw [hLc, hout (j * PGSIZE) (by rw [hcp])]
          · exact Hpg j (by omega) (by omega) pte hpte
      · rw [if_neg hv]
        by_cases hm : PTE_FLAGS pte₀ &&& PTE_M = 0
        · rw [if_neg (by simpa using hm)]
          rcases kalloc_cases m with ⟨hnil, hke⟩ | ⟨mem, rest, hcons, hke⟩
          · rw [hke]
            simp only [if_pos rfl, if_true]
            unfold uvmcopyErr uvmunmap
            rw [hcp, if_neg (by simp)]
            rcases hun : uvmunmapGo nt 0 true m c with _ | ⟨ntu, mu⟩
            · trivial
            · obtain ⟨hp1, hpres, hnum, _, _⟩ := uvmunmapGo_sound c nt 0 m ntu mu hun
              have hfreed := uvmunmapGo_freed c nt 0 m ntu mu hun
              refine ⟨?_, by omega⟩
              intro va
              by_cases hvc : va / PGSIZE < c
              · obtain ⟨ptek, hk1, hk2, hk3⟩ := hp1 (va / PGSIZE) hvc
                have hcg : walkRead ntu va = walkRead ntu (0 + va / PGSIZE * PGSIZE) := by
                  apply walkRead_congr
                  rw [pageIdx_add]
                  simp
                by_cases hkv : ptek &&& PTE_V = 0
                · rw [pteOf_of_walkRead (hcg.trans (hk3 hkv)), hkv]
                · rw [pteOf_of_walkRead (hcg.trans (hk2 hkv))]
                  decide
              · have hpr := hpres va (Or.inr (by simpa using Nat.le_of_not_lt hvc))
                have h0 := hout va (Nat.le_of_not_lt hvc)
                unfold pteOf at h0 ⊢
                rw [hpr, h0]
                decide
          · have hmemf := hwf mem (by rw [hcons]; exact List.mem_cons_self mem rest)
            obtain ⟨hm0, hma, hmlt⟩ := hmemf
            obtain ⟨hmni, hndr⟩ := List.nodup_cons.mp (hcons ▸ hnd)
            rw [hke]
            simp only [if_neg hm0]
            have hm2list : ({ { m with freeList := rest } with
                ram := copyBytes mem (PTE2PA pte₀) PGSIZE
                  ({ m with freeList := rest } : Mach).ram } : Mach).freeList
                = rest := rfl
            have hwf2 : wfAlloc ({ { m with freeList := rest } with
                ram := copyBytes mem (PTE2PA pte₀) PGSIZE
                  ({ m with freeList := rest } : Mach).ram }) := by
              intro f hf
              rw [hm2list] at hf
              exact hwf f (by rw [hcons]; exact List.mem_cons_of_mem mem hf)
            rcases @mappages_onePage nt (c * PGSIZE) mem (PTE_FLAGS pte₀)
                ({ { m with freeList := rest } with
                  ram := copyBytes mem (PTE2PA pte₀) PGSIZE
                    ({ m with freeList := rest } : Mach).ram }) hal with
              hfat | ⟨t₂, m₃, hmf, hwz⟩ | ⟨pteS, setS, m₃, hws, hvS, hmok⟩
            · rw [hfat]
              trivial
            · rw [hmf]
              simp only
              obtain ⟨hz1, hz2, hz3, hzram, hzdrop⟩ := walk_zero_spec hwz
                (fun f hf => (hwf2 f hf).1)
              unfold uvmcopyErr uvmunmap
              rw [hcp, if_neg (by simp)]
              rcases hun : uvmunmapGo t₂ 0 true (kfree mem m₃) c with _ | ⟨ntu, mu⟩
              · trivial
              · obtain ⟨hp1, hpres, hnum, _, _⟩ :=
                  uvmunmapGo_sound c t₂ 0 (kfree mem m₃) ntu mu hun
                have hfreed := uvmunmapGo_freed c t₂ 0 (kfree mem m₃) ntu mu hun
                have hfc : freedCount t₂ 0 c = freedCount nt 0 c :=
                  freedCount_congr c nt t₂ 0 (fun j _ => hz1 _)
                refine ⟨?_, ?_⟩
                · intro va
                  by_cases hvc : va / PGSIZE < c
                  · obtain ⟨ptek, hk1, hk2, hk3⟩ := hp1 (va / PGSIZE) hvc
                    have hcg : walkRead ntu va
                        = walkRead ntu (0 + va / PGSIZE * PGSIZE) := by
                      apply walkRead_congr
                      rw [pageIdx_add]
                      simp
                    by_cases hkv : ptek &&& PTE_V = 0
                    · rw [pteOf_of_walkRead (hcg.trans (hk3 hkv)), hkv]
                    · rw [pteOf_of_walkRead (hcg.trans (hk2 hkv))]
                      decide
                  · have hx := hpres va (Or.inr (by simpa using Nat.le_of_not_lt hvc))
                    have hzv := hz1 va
                    have h0 := hout va (Nat.le_of_not_lt hvc)
                    unfold pteOf at hzv h0 ⊢
                    rw [hx, hzv, h0]
                    decide
                · have hkl : (kfree mem m₃).freeList.length
                      = m₃.freeList.length + 1 := by
                    simp [kfree]
                  rw [hm2list] at hz3
                  have hml : m.freeList.length = rest.length + 1 := by
                    rw [hcons]
                    simp
                  omega
            · rw [hmok]
              simp only
              rw [show c * PGSIZE + PGSIZE = (c + 1) * PGSIZE by ring]
              obtain ⟨hs1, hs2, hs3, hsram, k, hsdrop⟩ := walk_slot_spec hws
              rw [hm2list] at hsdrop
              have hwf3 : wfAlloc m₃ := wfAlloc_drop hwf2 k (by rw [hsdrop, hm2list])
              have hnd3 : m₃.freeList.Nodup := by
                rw [hsdrop]
                exact List.Nodup.sublist (List.drop_sublist k rest) hndr
              have hdisj3 : ∀ f ∈ m₃.freeList, ∀ j pte,
                  walkRead old (j * PGSIZE) = some pte → f ≠ PTE2PA pte := by
                intro f hf
                rw [hsdrop] at hf
                exact hdisj f (by
                  rw [hcons]
                  exact List.mem_cons_of_mem mem (List.mem_of_mem_drop hf))
              have hout3 : ∀ va, c + 1 ≤ va / PGSIZE →
                  pteOf (setS (PA2PTE mem ||| PTE_FLAGS pte₀ ||| PTE_V)) va = 0 := by
                intro va hva
                have hne : va / PGSIZE ≠ c * PGSIZE / PGSIZE := by
                  rw [hcp]
                  omega
                rw [(hs2 _ va hne).1]
                exact hout va (by omega)
              have H := ih (c + 1) _ m₃ hwf3 hnd3 hdisj3 hout3
              rcases hres : uvmcopyGo old
                  (setS (PA2PTE mem ||| PTE_FLAGS pte₀ ||| PTE_V))
                  ((c + 1) * PGSIZE) m₃ n with _ | ⟨nt', m'⟩ | ⟨nt', m'⟩ <;>
                rw [hres] at H
              · trivial
              · obtain ⟨Hinv, Hsum⟩ := H
                refine ⟨Hinv, ?_⟩
                rw [freedCount_snoc c _ 0] at Hsum
                have hvnew : pteOf (setS (PA2PTE mem ||| PTE_FLAGS pte₀ ||| PTE_V))
                    (0 + c * PGSIZE) = PA2PTE mem ||| PTE_FLAGS pte₀ ||| PTE_V := by
                  rw [Nat.zero_add]
                  exact pteOf_of_walkRead (hs1 _)
                have hflt : PTE_FLAGS pte₀ ||| PTE_V < 1024 := by
                  have h1 := PTE_FLAGS_lt pte₀
                  have h2 : (1024 : Nat) = 2 ^ 10 := by decide
                  rw [show PTE_V = (1 : Nat) from rfl, h2]
                  exact Nat.or_lt_two_pow (h2 ▸ h1) (by decide)
                have hform : PA2PTE mem ||| PTE_FLAGS pte₀ ||| PTE_V
                    = mem / 4096 * 1024 + (PTE_FLAGS pte₀ ||| PTE_V) := by
                  rw [Nat.or_assoc]
                  exact pa2pte_or mem _ hflt
                have hm4 : mem / 4096 * 4096 = mem := by
                  unfold PGSIZE at hma
                  omega
                have hindV : (PA2PTE mem ||| PTE_FLAGS pte₀ ||| PTE_V) &&& PTE_V ≠ 0 := by
                  rw [hform, show PTE_V = (1 : Nat) from rfl, and_one_arith,
                    Nat.and_one_is_mod]
                  have : (PTE_FLAGS pte₀ ||| 1) % 2 = 1 :=
                    Nat.or_mod_two_eq_one.mpr (Or.inr rfl)
                  omega
                have hindP : PTE2PA (PA2PTE mem ||| PTE_FLAGS pte₀ ||| PTE_V) ≠ 0 := by
                  rw [hform, pte2pa_arith _ _ hflt (by rw [hm4]; exact hmlt), hm4]
                  exact hm0
                rw [hvnew, if_pos ⟨hindV, hindP⟩] at Hsum
                have hfc : freedCount (setS (PA2PTE mem ||| PTE_FLAGS pte₀ ||| PTE_V)) 0 c
                    = freedCount nt 0 c := by
                  apply freedCount_congr
                  intro j hj
                  have hne : (0 + j * PGSIZE) / PGSIZE ≠ c * PGSIZE / PGSIZE := by
                    rw [pageIdx_add, hcp, Nat.zero_div]
                    omega
                  exact (hs2 _ _ hne).1
                rw [hfc] at Hsum
                rw [hm2list] at hs3
                have hsum3 := hs3 (PA2PTE mem ||| PTE_FLAGS pte₀ ||| PTE_V)
                have hml : m.freeList.length = rest.length + 1 := by
                  rw [hcons]
                  simp
                omega
              · obtain ⟨Hpg, Hlow, Hhi, Hram, k', Hdrop⟩ := H
                have hsub3 : ∀ f ∈ m₃.freeList, f ∈ rest := by
                  intro f hf
                  rw [hsdrop] at hf
                  exact List.mem_of_mem_drop hf
                have hramuse : ∀ x, m₃.ram x
                    = copyBytes mem (PTE2PA pte₀) PGSIZE m.ram x := by
                  intro x
                  rw [hsram]
                refine ⟨?_, ?_, fun va h => Hhi va (by omega), ?_, ?_⟩
                · intro j hj1 hj2 pte hpte
                  by_cases hjc : j = c
                  · subst hjc
                    rw [hrd] at hpte
                    rw [Option.some.injEq] at hpte
                    subst hpte
                    refine ⟨fun hsk => ?_, fun _ _ => ?_⟩
                    · rcases hsk with hsk | hsk
                      · exact absurd hsk hv
                      · exact absurd hm (by simpa using hsk)
                    · refine ⟨mem, by rw [hcons]; exact List.mem_cons_self mem rest,
                        ?_, ?_⟩
                      · have hlow := (Hlow (j * PGSIZE) (by rw [hcp]; omega)).2
                        exact hlow _ (hs1 _)
                      · intro b hb
                        have hx := Hram (mem + b) (by
                          intro f hf
                          have hfr := hsub3 f hf
                          have hfwf := hwf f (by
                            rw [hcons]
                            exact List.mem_cons_of_mem mem hfr)
                          exact aligned_range_disjoint hfwf.2.1 hma
                            (fun he => hmni (he ▸ hfr)) hb)
                        rw [hx, hramuse]
                        unfold copyBytes
                        rw [if_pos ⟨Nat.le_add_right _ _, by omega⟩]
                        congr 1
                        omega
                  · have hp := Hpg j (by omega) (by omega) pte hpte
                    refine ⟨hp.1, fun h1 h2 => ?_⟩
                    obtain ⟨f, hf1, hf2, hf3⟩ := hp.2 h1 h2
                    refine ⟨f, by
                        rw [hcons]
                        exact List.mem_cons_of_mem mem (hsub3 f hf1), hf2, ?_⟩
                    intro b hb
                    rw [hf3 b hb, hramuse]
                    unfold copyBytes
                    rw [if_neg (aligned_range_disjoint hma (PTE2PA_mod pte)
                      (hdisj mem (by rw [hcons]; exact List.mem_cons_self mem rest)
                        j pte hpte) hb)]
                · intro va hva
                  have hne : va / PGSIZE ≠ c * PGSIZE / PGSIZE := by
                    rw [hcp]
                    omega
                  have hL := Hlow va (by omega)
                  refine ⟨hL.1.trans (hs2 _ va hne).1, fun x hx => ?_⟩
                  exact hL.2 x ((hs2 _ va hne).2 x hx)
                · intro x hx
                  have hx3 : ∀ f ∈ m₃.freeList, ¬(f ≤ x ∧ x < f + PGSIZE) := by
                    intro f hf
                    exact hx f (by
                      rw [hcons]
                      exact List.mem_cons_of_mem mem (hsub3 f hf))
                  rw [Hram x hx3, hramuse]
                  unfold copyBytes
                  rw [if_neg (by
                    have := hx mem (by rw [hcons]; exact List.mem_cons_self mem rest)
                    exact this)]
                · refine ⟨k + k' + 1, ?_⟩
                  rw [Hdrop, hsdrop, List.drop_drop, hcons]
                  rfl
        · rw [if_pos (by simpa using hm),
            show c * PGSIZE + PGSIZE = (c + 1) * PGSIZE by ring]
          have H := ih (c + 1) nt m hwf hnd hdisj (fun va h => hout va (by omega))
          rcases hres : uvmcopyGo old nt ((c + 1) * PGSIZE) m n with
            _ | ⟨nt', m'⟩ | ⟨nt', m'⟩ <;> rw [hres] at H
          · trivial
          · obtain ⟨Hinv, Hsum⟩ := H
            refine ⟨Hinv, ?_⟩
            rw [freedCount_snoc c nt 0] at Hsum
            have h0 : pteOf nt (0 + c * PGSIZE) = 0 := by
              apply hout
              rw [Nat.zero_add, hcp]
            rw [h0] at Hsum
            simp at Hsum
            exact Hsum
          · obtain ⟨Hpg, Hlow, Hhi, Hram, Hdrop⟩ := H
            refine ⟨?_, fun va h => Hlow va (by omega),
              fun va h => Hhi va (by omega), Hram, Hdrop⟩
            intro j hj1 hj2 pte hpte
            by_cases hjc : j = c
            · subst hjc
              rw [hrd] at hpte
              rw [Option.some.injEq] at hpte
              subst hpte
              refine ⟨fun _ => ?_, fun _ hM2 => absurd hM2 hm⟩
              have hLc := (Hlow (j * PGSIZE) (by rw [hcp]; omega)).1
              rw [hLc, hout (j * PGSIZE) (by rw [hcp])]
            · exact Hpg j (by omega) (by omega) pte hpte

theorem pteOf_empty (va : Nat) : pteOf emptyL2 va = 0 := by
  unfold pteOf walkRead emptyL2
  by_cases h : MAXVA ≤ va
  · rw [if_pos h]
    rfl
  · rw [if_neg h]
    rfl

theorem or_one_of_odd {x : Nat} (h : x % 2 = 1) : x ||| 1 = x := by
  apply Nat.eq_of_testBit_eq
  intro i
  rw [Nat.testBit_or]
  cases i with
  | zero =>
    rw [Nat.testBit_zero, Nat.testBit_zero]
    simp [h]
  | succ i =>
    have h1 : Nat.testBit 1 (i + 1) = false := by
      rw [Nat.testBit_succ]
      simp
    rw [h1, Bool.or_false]

theorem walkRead_shape {t : L2} {va pte : Nat} (h : walkRead t va = some pte) :
    ∃ l1 l0, t (pxF 2 va) = some l1 ∧ l1 (pxF 1 va) = some l0 ∧
      pte = l0 (pxF 0 va) := by
  unfold walkRead at h
  split at h
  · exact absurd h (by simp)
  split at h
  · exact absurd h (by simp)
  next l1 hl1 =>
    split at h
    · exact absurd h (by simp)
    next l0 hl0 =>
      rw [Option.some.injEq] at h
      exact ⟨l1, l0, hl1, hl0, h.symm⟩

/-- **C9 (amended).** `uvmcopy(old, new, sz)` into an empty `new`, with a
well-formed, duplicate-free free list disjoint from the source's frames.  On
a normal return: every source page invalid or tagged `PTE_M`
(reserved-unbacked) is absent from `new`; every live source page is mapped in
`new` by a valid entry whose frame is a fresh one taken from the free list
(distinct from the source frame), whose flag bits equal the source entry's
flag bits, and whose content is a byte-for-byte copy of the source page;
pages beyond the copied range stay absent.  On a reported failure (`-1`):
`new` is left with no valid mapping at all and the free list has regained
every data frame the call consumed, net of the page-table pages built.  (The
original claim's promise that any mid-copy failure is *reported* is refuted
separately: the unwind can panic instead.) -/
theorem C9_uvmcopy_pagewise (old : L2) (sz : Nat) (m : Mach)
    (hwf : wfAlloc m) (hnd : m.freeList.Nodup)
    (hdisj : ∀ f ∈ m.freeList, ∀ j pte, walkRead old (j * PGSIZE) = some pte →
      f ≠ PTE2PA pte) :
    (∀ nt' m', uvmcopy old emptyL2 sz m = .ok nt' m' →
      (∀ j, j < (sz + PGSIZE - 1) / PGSIZE → ∀ pte,
        walkRead old (j * PGSIZE) = some pte →
        ((pte &&& PTE_V = 0 ∨ PTE_FLAGS pte &&& PTE_M ≠ 0) →
          pteOf nt' (j * PGSIZE) = 0) ∧
        (pte &&& PTE_V ≠ 0 → PTE_FLAGS pte &&& PTE_M = 0 →
          ∃ f npte, walkRead nt' (j * PGSIZE) = some npte ∧
            f ∈ m.freeList ∧ f ≠ PTE2PA pte ∧
            npte &&& PTE_V ≠ 0 ∧ PTE2PA npte = f ∧
            PTE_FLAGS npte = PTE_FLAGS pte ∧
            ∀ b, b < PGSIZE → m'.ram (f + b) = m.ram (PTE2PA pte + b))) ∧
      (∀ va, (sz + PGSIZE - 1) / PGSIZE ≤ va / PGSIZE → pteOf nt' va = 0)) ∧
    (∀ nt' m', uvmcopy old emptyL2 sz m = .fail nt' m' →
      (∀ va, pteOf nt' va &&& PTE_V = 0) ∧
      m'.freeList.length + numTables nt' = m.freeList.length) := by
  have H := uvmcopyGo_spec old ((sz + PGSIZE - 1) / PGSIZE) 0 emptyL2 m hwf hnd
    hdisj (fun va _ => pteOf_empty va)
  rw [Nat.zero_mul] at H
  have huc : uvmcopy old emptyL2 sz m
      = uvmcopyGo old emptyL2 0 m ((sz + PGSIZE - 1) / PGSIZE) := rfl
  constructor
  · intro nt' m' hres
    rw [huc] at hres
    rw [hres] at H
    obtain ⟨Hpg, _, Hhi, _, _⟩ := H
    refine ⟨?_, fun va h => Hhi va (by omega)⟩
    intro j hj pte hpte
    have hp := Hpg j (by omega) (by omega) pte hpte
    refine ⟨hp.1, fun h1 h2 => ?_⟩
    obtain ⟨f, hf1, hf2, hf3⟩ := hp.2 h1 h2
    obtain ⟨hf0, hfa, hflt64⟩ := hwf f hf1
    have hoddp : pte &&& 1 ≠ 0 := by
      rw [show (1 : Nat) = PTE_V from rfl]
      exact h1
    have hfodd : PTE_FLAGS pte % 2 = 1 := by
      have he : PTE_FLAGS pte &&& 1 = pte &&& 1 := by
        unfold PTE_FLAGS
        rw [Nat.and_assoc, show (1023 : Nat) &&& 1 = 1 by decide]
      simp only [Nat.and_one_is_mod] at he hoddp
      omega
    have hor1 : PTE_FLAGS pte ||| PTE_V = PTE_FLAGS pte := by
      rw [show PTE_V = (1 : Nat) from rfl]
      exact or_one_of_odd hfodd
    have hflt : PTE_FLAGS pte ||| PTE_V < 1024 := by
      rw [hor1]
      exact PTE_FLAGS_lt pte
    have hform : PA2PTE f ||| PTE_FLAGS pte ||| PTE_V
        = f / 4096 * 1024 + (PTE_FLAGS pte ||| PTE_V) := by
      rw [Nat.or_assoc]
      exact pa2pte_or f _ hflt
    have hf4 : f / 4096 * 4096 = f := by
      unfold PGSIZE at hfa
      omega
    refine ⟨f, PA2PTE f ||| PTE_FLAGS pte ||| PTE_V, hf2, hf1,
      hdisj f hf1 j pte hpte, ?_, ?_, ?_, hf3⟩
    · rw [hform, show PTE_V = (1 : Nat) from rfl, and_one_arith,
        Nat.and_one_is_mod]
      have hom : (PTE_FLAGS pte ||| 1) % 2 = 1 :=
        Nat.or_mod_two_eq_one.mpr (Or.inr rfl)
      omega
    · rw [hform, pte2pa_arith _ _ hflt (by rw [hf4]; exact hflt64), hf4]
    · rw [hform, pte_flags_arith _ _ hflt, hor1]
  · intro nt' m' hres
    rw [huc] at hres
    rw [hres] at H
    obtain ⟨Hinv, Hsum⟩ := H
    refine ⟨Hinv, ?_⟩
    rw [numTables_empty] at Hsum
    simpa using Hsum






/-- **C9 counterexample.**  A source space whose pages `0..511` are present
but invalid, with live pages `512` and `513`, copied with exactly three free
frames: copying page `512` consumes all three (one data frame, a level-1 and
a level-0 table page), so the allocation for page `513` fails mid-copy.  The
claim promises this failure is reported after unwinding; instead the unwind's
`walk` over the never-populated low 2 MB region of `new` finds no slot and
the kernel panics (`uvmunmap: walk`): the run is fatal, not a reported
failure. -/
theorem C9_counterexample :
    (uvmcopy c9old emptyL2 (514 * 4096) c9m).isFatal = true := by
  decide








theorem C9_uvmcopy_pagewise_witness :
    wfAlloc c9wM ∧ c9wM.freeList.Nodup ∧
    (∀ f ∈ c9wM.freeList, ∀ j pte, walkRead c9wT (j * PGSIZE) = some pte →
      f ≠ PTE2PA pte) ∧
    (∃ f npte, walkRead c9wresT (0 * PGSIZE) = some npte ∧
      f ∈ c9wM.freeList ∧ f ≠ PTE2PA (PA2PTE 65536 ||| 31) ∧
      npte &&& PTE_V ≠ 0 ∧ PTE2PA npte = f ∧
      PTE_FLAGS npte = PTE_FLAGS (PA2PTE 65536 ||| 31) ∧
      ∀ b, b < PGSIZE → c9wresM.ram (f + b)
        = c9wM.ram (PTE2PA (PA2PTE 65536 ||| 31) + b)) := by
  have hwf : wfAlloc c9wM := by
    intro f hf
    fin_cases hf <;> exact ⟨by decide, by decide, by norm_num⟩
  have hnd : c9wM.freeList.Nodup := by decide
  have hval : ∀ i : Fin 512, c9wL0 i = 0 ∨ c9wL0 i = PA2PTE 65536 ||| 31 := by
    decide
  have hdisj : ∀ f ∈ c9wM.freeList, ∀ j pte,
      walkRead c9wT (j * PGSIZE) = some pte → f ≠ PTE2PA pte := by
    intro f hf j pte hpte
    obtain ⟨l1, l0, h2, h1, h0⟩ := walkRead_shape hpte
    have hl1 : l1 = c9wL1 := by
      by_cases hi : pxF 2 (j * PGSIZE) = ⟨0, by decide⟩
      · rw [hi] at h2
        unfold c9wT at h2
        rw [updFn_same] at h2
        rw [Option.some.injEq] at h2
        exact h2.symm
      · unfold c9wT at h2
        rw [updFn_other _ _ _ _ hi] at h2
        exact absurd h2 (by simp [emptyL2])
    subst hl1
    have hl0 : l0 = c9wL0 := by
      by_cases hi : pxF 1 (j * PGSIZE) = ⟨0, by decide⟩
      · rw [hi] at h1
        unfold c9wL1 at h1
        rw [updFn_same] at h1
        rw [Option.some.injEq] at h1
        exact h1.symm
      · unfold c9wL1 at h1
        rw [updFn_other _ _ _ _ hi] at h1
        exact absurd h1 (by simp [emptyL1])
    subst hl0
    subst h0
    rcases hval (pxF 0 (j * PGSIZE)) with hz | ho
    · rw [hz]
      fin_cases hf <;> decide
    · rw [ho]
      fin_cases hf <;> decide
  have happ := (C9_uvmcopy_pagewise c9wT 4096 c9wM hwf hnd hdisj).1
    c9wresT c9wresM rfl
  have hpte0 : walkRead c9wT (0 * PGSIZE) = some (PA2PTE 65536 ||| 31) := by
    decide
  have hkey := (happ.1 0 (by decide) (PA2PTE 65536 ||| 31) hpte0).2
    (by decide) (by decide)
  exact ⟨hwf, hnd, hdisj, hkey⟩

end VM
